import Mathlib

/-!
Buddy and pool allocators: a shallow embedding.

The two allocators of `src/alloc/buddy.c` and `src/alloc/pool.c` are embedded as
pure functions over an explicit page.

Conventions used throughout.

* An address is a `Nat`: the byte offset from the start of the (page-aligned) page.
* A nullable C pointer is an `Option Nat`; `none` is `NULL`.
* The page is typed memory: a map from the offset of an object to the object stored
  there (`head_t` for the buddy allocator, the `short` link of `pool_block_t` for the
  pool allocator).
* Every operation that touches memory or shifts returns an `Option`; the outer `none`
  means that the C program leaves defined behaviour there (an access outside the page,
  a shift by an invalid amount, `__builtin_clzl (0)`) or that the
  result would depend on something the embedding does not track (the absolute page
  address, two objects overlapping in memory).  A result `some r` is the exact result
  of the C code.
* `short` values are `Int`s; conversions to `short` wrap explicitly (`toShort`), and so
  does the one subtraction on `long` (in `get_level`).
-/

/-- Conversion of an integer value to `short` (16 bit two's complement wrap-around). -/
def toShort (x : Int) : Int := (x + 32768) % 65536 - 32768

namespace Buddy

/-- `#define MIN_LEVEL 3`. -/
def MIN_LEVEL : Int := 3

/-- `#define PAGE_LEVEL 12`. -/
def PAGE_LEVEL : Int := 12

/-- `#define PAGE_LEN (1 << PAGE_LEVEL)`. -/
def PAGE_LEN : Nat := 1 <<< 12

/-- `#define ONES 0xffffffffffffffff`. -/
def ONES : Nat := 0xffffffffffffffff

/-- `sizeof(head_t)`: a `bool`, one byte of padding and a `short`. -/
def SIZEOF_HEAD : Nat := 4

/-- `typedef struct { bool taken; short level; } head_t;`. -/
structure head_t where
  taken : Bool
  level : Int
  deriving DecidableEq

/-- The page as typed memory: the header stored at each byte offset. -/
abbrev Page := Nat → head_t

/-- A freshly mapped page is zero-filled: every header reads `{false, 0}`. -/
def zero_page : Page := fun _ => { taken := false, level := 0 }

/-- Whether a `head_t` may be accessed at offset `a`: inside the page, and on the grid of
`sizeof(head_t)` bytes so that two distinct headers never overlap. -/
def accessible (a : Nat) : Bool := a % SIZEOF_HEAD == 0 && a + SIZEOF_HEAD ≤ PAGE_LEN

/-- Read of the header at offset `a`. -/
def load (m : Page) (a : Nat) : Option head_t :=
  if accessible a then some (m a) else none

/-- Write of the header at offset `a`. -/
def store (m : Page) (a : Nat) (h : head_t) : Option Page :=
  if accessible a then some (fun x => if x = a then h else m x) else none

/-- The `int` expression `0x1 << level`, defined for `0 ≤ level < 31`. -/
def shl1 (level : Int) : Option Nat :=
  if 0 ≤ level ∧ level < 31 then some (1 <<< level.toNat) else none

/-- The bit `0x1 << level` where it is combined with a block address by `|` or `^`:
below `PAGE_LEVEL` the result is the same bit operation on the page offset; from
`PAGE_LEVEL` on it depends on the absolute address of the page. -/
def page_bit (level : Int) : Option Nat :=
  if 0 ≤ level ∧ level < PAGE_LEVEL then some (1 <<< level.toNat) else none

/-- `new_block`: `mapped` says whether `mmap` succeeds; the result is `NULL` (`none`) or the
zero-filled page with `level = PAGE_LEVEL` written into the header at its start. -/
def new_block (mapped : Bool) : Option Page :=
  if mapped then
    some (fun x => if x = 0 then { zero_page 0 with level := PAGE_LEVEL } else zero_page x)
  else none

/-- `get_next`: `block + (0x1 << block->level)`. -/
def get_next (m : Page) (block : Nat) : Option Nat := do
  let b ← load m block
  let s ← shl1 b.level
  pure (block + s)

/-- `within_block`: `ptr < block + PAGE_LEN`. -/
def within_block (block ptr : Nat) : Bool := ptr < block + PAGE_LEN

/-- `get_buddy`: `block ^ (0x1 << block->level)`. -/
def get_buddy (m : Page) (block : Nat) : Option Nat := do
  let b ← load m block
  let s ← page_bit b.level
  pure (block ^^^ s)

/-- `split`: lowers the level of `block` by one, marks it free, copies the header to
`block | (0x1 << new_level)` and returns that address together with the new page. -/
def split (m : Page) (block : Nat) : Option (Nat × Page) := do
  let b ← load m block
  let new_level := toShort (b.level - 1)
  let m1 ← store m block { taken := false, level := new_level }
  let s ← page_bit new_level
  let other := block ||| s
  let b1 ← load m1 block
  let m2 ← store m1 other b1
  pure (other, m2)

/-- `merge`: `primary = block & (ONES << (block->level + 1))`, then `primary->level++`.
The mask keeps the page address only for shifts up to `PAGE_LEVEL`. -/
def merge (m : Page) (block : Nat) : Option (Nat × Page) := do
  let b ← load m block
  if 0 ≤ b.level + 1 ∧ b.level + 1 ≤ PAGE_LEVEL then
    let mask := (ONES <<< (b.level + 1).toNat) % 2 ^ 64
    let primary := block &&& mask
    let p ← load m primary
    let m1 ← store m primary { p with level := toShort (p.level + 1) }
    pure (primary, m1)
  else none

/-- Number of binary digits of `x` (at most `fuel` of them are counted). -/
def bit_length : Nat → Nat → Nat
  | 0, _ => 0
  | fuel + 1, x => if x = 0 then 0 else bit_length fuel (x / 2) + 1

/-- `__builtin_clzl` on a non-zero 64 bit value: the number of leading zero bits. -/
def clzl (x : Nat) : Nat := 64 - bit_length 64 x

/-- `get_level`: `alloc_len + sizeof(head_t)` wraps modulo `2 ^ 64`; `(long) total_len - 1`
is taken in 64 bit two's complement, as the machine computes it, and is passed to
`__builtin_clzl` as an unsigned long (undefined at zero). -/
def get_level (alloc_len : Nat) : Option Int :=
  let total_len : Nat := (alloc_len + SIZEOF_HEAD) % 2 ^ 64
  let as_long : Int := if total_len < 2 ^ 63 then (total_len : Int) else (total_len : Int) - 2 ^ 64
  let arg : Nat := ((as_long - 1) % 2 ^ 64).toNat
  if arg = 0 then none
  else
    let level : Int := 8 * 8 - (clzl arg : Int)
    some (toShort (if level < MIN_LEVEL then MIN_LEVEL else level))

/-- The scanning `for` loop of `buddy_alloc`, started at `current` with the best block so
far in `smallest`.  Every iteration moves `current` forward, so `PAGE_LEN + 1` units of
fuel are never used up. -/
def scan (m : Page) (level : Int) : Nat → Nat → Option Nat → Option (Option Nat)
  | 0, _, _ => none
  | fuel + 1, current, smallest =>
    if within_block 0 current then do
      let c ← load m current
      let better ←
        if !c.taken && decide (c.level ≥ level) then
          match smallest with
          | none => pure true
          | some s => do
            let sh ← load m s
            pure (decide (c.level < sh.level))
        else pure false
      let next ← get_next m current
      scan m level fuel next (if better then some current else smallest)
    else some smallest

/-- The loop `while (level < smallest->level) split(smallest);` of `buddy_alloc`. -/
def split_loop (level : Int) (smallest : Nat) : Nat → Page → Option Page
  | 0, _ => none
  | fuel + 1, m => do
    let h ← load m smallest
    if level < h.level then do
      let r ← split m smallest
      split_loop level smallest fuel r.2
    else pure m

/-- `buddy_alloc`: the state is the global `g_top_block` (`none` is `NULL`, otherwise the
page it points to); the result is the returned pointer and the new state. -/
def buddy_alloc (mapped : Bool) (g_top_block : Option Page) (len : Nat) :
    Option (Option Nat × Option Page) :=
  if len = 0 then some (none, g_top_block)
  else do
    let level ← get_level len
    if level > PAGE_LEVEL then pure (none, g_top_block)
    else
      match (match g_top_block with
             | some m => some m
             | none => new_block mapped) with
      | none => pure (none, none)
      | some m => do
        let found ← scan m level (PAGE_LEN + 1) 0 none
        match found with
        | none => pure (none, some m)
        | some smallest => do
          let m1 ← split_loop level smallest (PAGE_LEN + 1) m
          let h ← load m1 smallest
          let m2 ← store m1 smallest { h with taken := true }
          pure (some (smallest + SIZEOF_HEAD), some m2)

/-- The merging `while` loop of `buddy_free`. -/
def free_loop : Nat → Page → Nat → Option Page
  | 0, _, _ => none
  | fuel + 1, m, head => do
    let h ← load m head
    if h.level < PAGE_LEVEL then do
      let buddy ← get_buddy m head
      let bh ← load m buddy
      if !bh.taken then do
        let r ← merge m head
        let ph ← load r.2 r.1
        let m2 ← store r.2 r.1 { ph with taken := false }
        free_loop fuel m2 r.1
      else pure m
    else pure m

/-- `buddy_free`: a non-null pointer is only meaningful once the page exists. -/
def buddy_free (g_top_block : Option Page) (ptr : Option Nat) : Option (Option Page) :=
  match ptr with
  | none => some g_top_block
  | some p =>
    match g_top_block with
    | none => none
    | some m =>
      if SIZEOF_HEAD ≤ p then do
        let head := p - SIZEOF_HEAD
        let h ← load m head
        let m1 ← store m head { h with taken := false }
        let m2 ← free_loop (PAGE_LEN + 1) m1 head
        pure (some m2)
      else none

/-- The state after the page has been mapped and nothing allocated: the top block is free
with level `PAGE_LEVEL`. -/
def fresh : Option Page := new_block true

/-- Total free capacity: the sum of `2 ^ level` over the free blocks met when walking the
block chain from `current` (the walk of the scanning loop of `buddy_alloc`). -/
def free_capacity (m : Page) : Nat → Nat → Option Nat
  | 0, _ => none
  | fuel + 1, current =>
    if within_block 0 current then do
      let c ← load m current
      let s ← shl1 c.level
      let rest ← free_capacity m fuel (current + s)
      pure (if c.taken then rest else s + rest)
    else some 0

/-- A block of the chain: its address, its level and its `taken` flag. -/
structure Blk where
  addr : Nat
  level : Nat
  taken : Bool

/-- The header a block of the chain carries in the page. -/
def Blk.hdr (b : Blk) : head_t := { taken := b.taken, level := (b.level : Int) }

/-- `Tiles m a bs e`: walking the page from address `a` with `get_next` meets exactly the
blocks of `bs`, each with a level in `[MIN_LEVEL, PAGE_LEVEL]` and an address that is a
multiple of its size, and ends at address `e`. -/
def Tiles (m : Page) : Nat → List Blk → Nat → Prop
  | a, [], e => a = e
  | a, b :: bs, e => b.addr = a ∧ m a = b.hdr ∧ 3 ≤ b.level ∧ b.level ≤ 12 ∧
      a % 2 ^ b.level = 0 ∧ Tiles m (a + 2 ^ b.level) bs e

/-- The choice made by the scanning loop of `buddy_alloc`, on the list of blocks: a free block
of level at least `level` replaces the current choice when there is none or when its level
is strictly smaller. -/
def pick (level : Int) : Option Blk → List Blk → Option Blk
  | acc, [] => acc
  | acc, b :: bs =>
    pick level
      (if !b.taken && decide ((b.level : Int) ≥ level) &&
          (match acc with
           | none => true
           | some s => decide (b.level < s.level))
       then some b else acc) bs

/-- The free blocks that the splitting loop leaves behind the block at `s` when it lowers
its level by `d` down to `l`: one block of each level `l, ..., l + d - 1`, at `s + 2 ^ level`. -/
def split_tail (s l d : Nat) : List Blk :=
  (List.range' l d).map (fun j => { addr := s + 2 ^ j, level := j, taken := false })

/-- A sequence of `buddy_alloc` calls with the given lengths and no `buddy_free` in between;
`acc` collects the pairs (returned pointer, requested length) of the calls that returned
non-null, the latest first. -/
def alloc_seq : List Nat → Option Page → List (Nat × Nat) → Option (List (Nat × Nat) × Option Page)
  | [], g, acc => some (acc, g)
  | len :: lens, g, acc => do
    let r ← buddy_alloc true g len
    alloc_seq lens r.2 (match r.1 with
      | some p => (p, len) :: acc
      | none => acc)

/-- The ownership invariant of a sequence of allocations: the page is tiled by the blocks
`bs`, and every pointer handed out belongs to a taken block of `bs` that is large enough
for the header and the requested length. -/
structure Own (m : Page) (bs : List Blk) (hits : List (Nat × Nat)) : Prop where
  tiles : Tiles m 0 bs PAGE_LEN
  owned : ∀ x ∈ hits, ∃ lvl, { addr := x.1 - 4, level := lvl, taken := true } ∈ bs ∧
    4 ≤ x.1 ∧ x.2 + 4 ≤ 2 ^ lvl
  disjoint : hits.Pairwise (fun x y => x.1 + x.2 ≤ y.1 ∨ y.1 + y.2 ≤ x.1)

/-- The block chain of the page: the addresses and headers met when walking from `current`
with `get_next` while `within_block` holds (the walk of the scanning loop of `buddy_alloc`). -/
def walk (m : Page) : Nat → Nat → Option (List (Nat × head_t))
  | 0, _ => none
  | fuel + 1, current =>
    if within_block 0 current then do
      let c ← load m current
      let s ← shl1 c.level
      let rest ← walk m fuel (current + s)
      pure ((current, c) :: rest)
    else some []

/-- The page right after it has been mapped by `new_block`, in closed form. -/
def fresh_page : Page :=
  fun x => if x = 0 then { taken := false, level := 12 } else zero_page x

/-- `n` consecutive calls `buddy_alloc(len)`: the pointers returned, in order, and the final
state. -/
def alloc_rep (len : Nat) : Nat → Option Page → Option (List (Option Nat) × Option Page)
  | 0, g => some ([], g)
  | n + 1, g => do
    let r ← buddy_alloc true g len
    let rest ← alloc_rep len n r.2
    pure (r.1 :: rest.1, rest.2)

/-- The shape of the page after `j` allocations of level `L` from the fresh page: the blocks
`T` up to `j * 2 ^ L` are taken, and the remainder is tiled by the free blocks `F`, of
level at least `L` and of strictly increasing level. -/
structure Uni (L : Nat) (m : Page) (j : Nat) (T F : List Blk) : Prop where
  tiles_T : Tiles m 0 T (j * 2 ^ L)
  tiles_F : Tiles m (j * 2 ^ L) F PAGE_LEN
  taken_T : ∀ c ∈ T, c.taken = true
  free_F : ∀ c ∈ F, c.taken = false ∧ L ≤ c.level
  sorted_F : F.Pairwise (fun x y => x.level < y.level)

end Buddy

namespace Pool

/-- `#define PAGE_LEVEL 12`. -/
def PAGE_LEVEL : Nat := 12

/-- `#define PAGE_LEN (1 << PAGE_LEVEL)`. -/
def PAGE_LEN : Nat := 1 <<< 12

/-- `sizeof(pool_block_t)`: one `short`. -/
def SIZEOF_BLOCK : Nat := 2

/-- The page as typed memory: the `next_offset` field stored at each byte offset. -/
abbrev Page := Nat → Int

/-- A freshly mapped page is zero-filled. -/
def zero_page : Page := fun _ => 0

/-- `pool_alloc_t` of `pool.h`; `pool = none` is the `NULL` page pointer, otherwise the field
holds the page it points to. -/
structure pool_alloc_t where
  pool : Option Page
  el_len : Nat
  first_index : Int

/-- `#define NEW_POOL_ALLOC_FAILED`. -/
def NEW_POOL_ALLOC_FAILED : pool_alloc_t := { pool := none, el_len := 0, first_index := 0 }

/-- Whether a `pool_block_t` may be accessed at offset `a` of a pool with elements of
`el_len` bytes: inside the page, and at the start of an element that is large enough for
the link, so that two distinct links never overlap. -/
def accessible (el_len a : Nat) : Bool :=
  decide (SIZEOF_BLOCK ≤ el_len) && a % el_len == 0 && decide (a + SIZEOF_BLOCK ≤ PAGE_LEN)

/-- Read of the link stored at offset `a`. -/
def load (el_len : Nat) (m : Page) (a : Nat) : Option Int :=
  if accessible el_len a then some (m a) else none

/-- Write of the link stored at offset `a`. -/
def store (el_len : Nat) (m : Page) (a : Nat) (v : Int) : Option Page :=
  if accessible el_len a then some (fun x => if x = a then v else m x) else none

/-- `get_last_block`: the offset `(PAGE_LEN / el_len - 1) * el_len`, in `size_t` arithmetic. -/
def get_last_block (pool_alloc : pool_alloc_t) : Option Nat :=
  if pool_alloc.el_len = 0 then none
  else
    let index := (PAGE_LEN / pool_alloc.el_len + 2 ^ 64 - 1) % 2 ^ 64
    some ((index * pool_alloc.el_len) % 2 ^ 64)

/-- `new_pool_alloc`: `mapped` says whether `mmap` succeeds. -/
def new_pool_alloc (mapped : Bool) (el_len : Nat) : Option pool_alloc_t :=
  if el_len = 0 ∨ el_len > PAGE_LEN then some NEW_POOL_ALLOC_FAILED
  else
    let el_len := if el_len < SIZEOF_BLOCK then SIZEOF_BLOCK else el_len
    if !mapped then some NEW_POOL_ALLOC_FAILED
    else do
      let pool_alloc : pool_alloc_t := { pool := some zero_page, el_len := el_len, first_index := 0 }
      let last_block ← get_last_block pool_alloc
      let m ← store el_len zero_page last_block (-1)
      pure { pool_alloc with pool := some m }

/-- `new_pool_alloc_failed`: `pool_alloc->pool == NULL`. -/
def new_pool_alloc_failed (pool_alloc : pool_alloc_t) : Bool := pool_alloc.pool.isNone

/-- `offset_to_index`. -/
def offset_to_index (block_index offset : Int) : Int :=
  if offset = -1 then -1 else toShort (offset + block_index + 1)

/-- `index_to_offset`. -/
def index_to_offset (block_index index : Int) : Int :=
  if index = -1 then -1 else toShort (index - block_index - 1)

/-- `get_block`: `NULL` for index `-1`, otherwise `pool + index * el_len` (the product in
`size_t` arithmetic).  A pointer that leaves the page is not tracked. -/
def get_block (pool_alloc : pool_alloc_t) (index : Int) : Option (Option Nat) :=
  if index = -1 then some none
  else
    let offset := ((index % 2 ^ 64).toNat * pool_alloc.el_len) % 2 ^ 64
    match pool_alloc.pool with
    | some _ => if offset + SIZEOF_BLOCK ≤ PAGE_LEN then some (some offset) else none
    | none => if offset = 0 then some none else none

/-- `get_index`: `-1` for `NULL`, otherwise `(block - pool) / el_len` converted to `short`. -/
def get_index (pool_alloc : pool_alloc_t) (block : Option Nat) : Option Int :=
  match block with
  | none => some (-1)
  | some b =>
    match pool_alloc.pool with
    | none => none
    | some _ => if pool_alloc.el_len = 0 then none else some (toShort ((b / pool_alloc.el_len : Nat) : Int))

/-- `consume_first_block`: returns the popped block and the updated handle. -/
def consume_first_block (pool_alloc : pool_alloc_t) : Option (Option Nat × pool_alloc_t) := do
  let first ← get_block pool_alloc pool_alloc.first_index
  match first with
  | none => pure (none, pool_alloc)
  | some f => do
    let m ← pool_alloc.pool
    let next_offset ← load pool_alloc.el_len m f
    let new_first := offset_to_index pool_alloc.first_index next_offset
    pure (some f, { pool_alloc with first_index := new_first })

/-- `release_block`. -/
def release_block (pool_alloc : pool_alloc_t) (block : Option Nat) : Option pool_alloc_t := do
  let new_first_index ← get_index pool_alloc block
  let new_first ← block
  let m ← pool_alloc.pool
  let m1 ← store pool_alloc.el_len m new_first
    (index_to_offset new_first_index pool_alloc.first_index)
  pure { pool_alloc with pool := some m1, first_index := new_first_index }

/-- `pool_alloc`. -/
def pool_alloc (pool_alloc : pool_alloc_t) : Option (Option Nat × pool_alloc_t) :=
  consume_first_block pool_alloc

/-- `pool_free`. -/
def pool_free (pool_alloc : pool_alloc_t) (ptr : Option Nat) : Option pool_alloc_t :=
  match ptr with
  | none => some pool_alloc
  | some p => release_block pool_alloc (some p)

/-- The indices met when following decoded links from `index` until the sentinel `-1`. -/
def free_list (pool_alloc : pool_alloc_t) : Nat → Int → Option (List Int)
  | 0, _ => none
  | fuel + 1, index => do
    let b ← get_block pool_alloc index
    match b with
    | none => pure []
    | some p => do
      let m ← pool_alloc.pool
      let next_offset ← load pool_alloc.el_len m p
      let rest ← free_list pool_alloc fuel (offset_to_index index next_offset)
      pure (index :: rest)

/-- `n` consecutive calls of `pool_alloc`: the pointers returned, in order, and the final
handle. -/
def alloc_n : Nat → pool_alloc_t → Option (List (Option Nat) × pool_alloc_t)
  | 0, h => some ([], h)
  | n + 1, h => do
    let r ← pool_alloc h
    let rest ← alloc_n n r.2
    pure (r.1 :: rest.1, rest.2)

/-- Calls of `pool_free` on the pointers of a list, in order. -/
def free_all : List Nat → pool_alloc_t → Option pool_alloc_t
  | [], h => some h
  | p :: ps, h => do
    let h1 ← pool_free h (some p)
    free_all ps h1

/-- A handle whose page is mapped and whose element length is in range. -/
structure Valid (h : pool_alloc_t) (m : Page) : Prop where
  pool_eq : h.pool = some m
  two_le : 2 ≤ h.el_len
  le_page : h.el_len ≤ 4096

/-- The links of a freshly initialised pool: zero in every slot but the last, which holds
the sentinel. -/
structure FreshLinks (h : pool_alloc_t) (m : Page) : Prop where
  valid : Valid h m
  zero : ∀ i : Nat, i + 1 < 4096 / h.el_len → m (i * h.el_len) = 0
  last : m ((4096 / h.el_len - 1) * h.el_len) = -1

/-- The free list as a list of slot indices: `Chain m el f L` says that following the decoded
links from the index `f` meets exactly the indices of `L`, in order, and then the
sentinel. -/
def Chain (m : Page) (el : Nat) : Int → List Nat → Prop
  | f, [] => f = -1
  | f, i :: L => f = (i : Int) ∧ Chain m el (offset_to_index i (m (i * el))) L

/-- Pool states reachable by valid use, together with the pointers currently allocated:
a successful `new_pool_alloc`, then calls of `pool_alloc`, calls of `pool_free` on currently
allocated pointers, and writes of the caller into the storage of an allocated slot (of which
the embedding sees the value of the slot's link field). -/
inductive Reach : pool_alloc_t → List Nat → Prop
  | init (n : Nat) (h : pool_alloc_t) : 1 ≤ n → n ≤ PAGE_LEN →
      new_pool_alloc true n = some h → Reach h []
  | alloc (h : pool_alloc_t) (live : List Nat) (p : Nat) (h' : pool_alloc_t) :
      Reach h live → pool_alloc h = some (some p, h') → Reach h' (p :: live)
  | free (h : pool_alloc_t) (live : List Nat) (p : Nat) (h' : pool_alloc_t) :
      Reach h live → p ∈ live → pool_free h (some p) = some h' → Reach h' (live.erase p)
  | write (h : pool_alloc_t) (live : List Nat) (p : Nat) (v : Int) (m : Page) :
      Reach h live → p ∈ live → h.pool = some m →
      Reach { h with pool := some (fun x => if x = p then v else m x) } live

/-- The free-list invariant of the pool: the links from `first_index` form a duplicate-free
list `L` of valid slot indices, the allocated pointers are duplicate-free slot addresses
outside `L`, and every slot is in `L` or allocated. -/
structure Inv (h : pool_alloc_t) (live : List Nat) (m : Page) (L : List Nat) : Prop where
  valid : Valid h m
  chain : Chain m h.el_len h.first_index L
  nodup : L.Nodup
  live_nodup : live.Nodup
  bound : ∀ i ∈ L, i < 4096 / h.el_len
  live_slot : ∀ p ∈ live, ∃ i, i < 4096 / h.el_len ∧ p = i * h.el_len ∧ i ∉ L
  cover : ∀ i, i < 4096 / h.el_len → i ∈ L ∨ i * h.el_len ∈ live

/-- The handle after three allocations from a pool of four slots of 1024 bytes. -/
def lifo_state : pool_alloc_t :=
  { pool := some (fun x => if x = 3072 then -1 else zero_page x), el_len := 1024,
    first_index := 3 }

/-- The links of the slots of `L` are canonical: each holds the encoding of the index it
decodes to. -/
def Canon (m : Page) (el : Nat) (L : List Nat) : Prop :=
  ∀ i ∈ L, index_to_offset i (offset_to_index i (m (i * el))) = m (i * el)

end Pool

/-! ## Theorems -/

theorem toShort_of_range (x : Int) (h1 : -32768 ≤ x) (h2 : x < 32768) : toShort x = x := by
  unfold toShort
  omega

namespace Pool

theorem page_len_eq : PAGE_LEN = 4096 := by decide

/-- The offset of the last slot is inside the page, at the start of a slot. -/
theorem last_slot_bounds (el : Nat) (h1 : 2 ≤ el) (h2 : el ≤ 4096) :
    1 ≤ 4096 / el ∧ 4096 / el ≤ 2048 ∧ (4096 / el - 1) * el + el ≤ 4096 := by
  have hpos : 0 < el := by omega
  have hN : 1 ≤ 4096 / el := (Nat.one_le_div_iff hpos).2 h2
  have hN2 : 4096 / el ≤ 2048 := by
    calc 4096 / el ≤ 4096 / 2 := Nat.div_le_div_left h1 (by norm_num)
      _ = 2048 := by norm_num
  refine ⟨hN, hN2, ?_⟩
  have h3 : 4096 / el * el ≤ 4096 := Nat.div_mul_le_self 4096 el
  have h4 : (4096 / el - 1) * el + el = 4096 / el * el := by
    have : 4096 / el = (4096 / el - 1) + 1 := by omega
    conv_rhs => rw [this, Nat.add_mul, Nat.one_mul]
  omega

theorem slot_offset_bounds (el i : Nat) (hi : i < 4096 / el) :
    i * el + el ≤ 4096 := by
  have h3 : 4096 / el * el ≤ 4096 := Nat.div_mul_le_self 4096 el
  have h4 : (i + 1) * el ≤ 4096 / el * el := Nat.mul_le_mul_right el hi
  rw [Nat.add_mul, Nat.one_mul] at h4
  omega

theorem accessible_slot (el i : Nat) (h1 : 2 ≤ el) (hi : i < 4096 / el) :
    accessible el (i * el) = true := by
  have hb := slot_offset_bounds el i hi
  simp only [accessible, SIZEOF_BLOCK, page_len_eq, Nat.mul_mod_left, Bool.and_eq_true,
    decide_eq_true_eq, beq_self_eq_true, and_true]
  omega

/-- The handle returned by a successful `new_pool_alloc`, in closed form. -/
theorem new_pool_alloc_ok (n : Nat) (h1 : 1 ≤ n) (h2 : n ≤ PAGE_LEN) :
    new_pool_alloc true n = some
      { pool := some (fun x => if x = (PAGE_LEN / max n 2 - 1) * max n 2 then -1 else zero_page x),
        el_len := max n 2, first_index := 0 } := by
  rw [page_len_eq] at h2 ⊢
  have hel : (if n < SIZEOF_BLOCK then SIZEOF_BLOCK else n) = max n 2 := by
    simp only [SIZEOF_BLOCK]
    split <;> omega
  have hb := last_slot_bounds (max n 2) (by omega) (by omega)
  have hlast : get_last_block { pool := some zero_page, el_len := max n 2, first_index := 0 }
      = some ((4096 / max n 2 - 1) * max n 2) := by
    simp only [get_last_block, page_len_eq]
    rw [if_neg (by omega)]
    have e1 : (4096 / max n 2 + 2 ^ 64 - 1) % 2 ^ 64 = 4096 / max n 2 - 1 := by omega
    rw [e1, Nat.mod_eq_of_lt (by omega)]
  have hacc := accessible_slot (max n 2) (4096 / max n 2 - 1) (by omega) (by omega)
  unfold new_pool_alloc
  rw [if_neg (by rw [page_len_eq]; omega), hel]
  simp only [Bool.not_true, Bool.false_eq_true, if_false, hlast, store, hacc, if_true,
    Option.bind_eq_bind, Option.some_bind, Option.pure_def]

theorem slot_count_le {h : pool_alloc_t} {m : Page} (hv : Valid h m) : 4096 / h.el_len ≤ 2048 :=
  (last_slot_bounds h.el_len hv.two_le hv.le_page).2.1

theorem slot_offset_inj {el i j : Nat} (hel : 2 ≤ el) (hij : i * el = j * el) : i = j :=
  Nat.eq_of_mul_eq_mul_right (by omega) hij

theorem get_block_slot {h : pool_alloc_t} {m : Page} (hv : Valid h m) (i : Nat)
    (hi : i < 4096 / h.el_len) : get_block h (i : Int) = some (some (i * h.el_len)) := by
  have hN := slot_count_le hv
  have hb := slot_offset_bounds h.el_len i hi
  have e1 : ((i : Int) % 2 ^ 64).toNat = i := by omega
  unfold get_block
  rw [if_neg (by omega), e1, hv.pool_eq]
  have e2 : i * h.el_len % 2 ^ 64 = i * h.el_len := Nat.mod_eq_of_lt (by omega)
  simp only [e2, SIZEOF_BLOCK, page_len_eq]
  rw [if_pos (by have := hv.two_le; omega)]

theorem pool_alloc_slot {h : pool_alloc_t} {m : Page} (hv : Valid h m) (i : Nat)
    (hi : i < 4096 / h.el_len) (hf : h.first_index = (i : Int)) :
    pool_alloc h = some (some (i * h.el_len),
      { h with first_index := offset_to_index i (m (i * h.el_len)) }) := by
  unfold pool_alloc consume_first_block
  rw [hf, get_block_slot hv i hi]
  simp only [Option.bind_eq_bind, Option.some_bind, hv.pool_eq, load,
    accessible_slot h.el_len i hv.two_le hi, if_true, Option.pure_def]

theorem pool_alloc_null {h : pool_alloc_t} (hf : h.first_index = -1) :
    pool_alloc h = some (none, h) := by
  unfold pool_alloc consume_first_block get_block
  rw [hf]
  simp

theorem pool_free_slot {h : pool_alloc_t} {m : Page} (hv : Valid h m) (j : Nat)
    (hj : j < 4096 / h.el_len) :
    pool_free h (some (j * h.el_len)) = some
      { h with pool := some (fun x => if x = j * h.el_len then index_to_offset j h.first_index
                                      else m x),
               first_index := (j : Int) } := by
  have hN := slot_count_le hv
  have hpos : 0 < h.el_len := by have := hv.two_le; omega
  have e1 : j * h.el_len / h.el_len = j := Nat.mul_div_cancel j hpos
  have e2 : toShort (j : Int) = j := toShort_of_range _ (by omega) (by omega)
  unfold pool_free release_block get_index
  simp only [hv.pool_eq, if_neg (Nat.pos_iff_ne_zero.1 hpos), e1, e2, Option.bind_eq_bind,
    Option.some_bind, store, accessible_slot h.el_len j hv.two_le hj, if_true, Option.pure_def]

/-- Decoding undoes encoding whenever the encoded index is the sentinel or a valid slot index
other than the block's own. -/
theorem decode_encode (i j : Int) (hi : 0 ≤ i) (hi2 : i < 2048)
    (hj : j = -1 ∨ (0 ≤ j ∧ j < 2048 ∧ j ≠ i)) :
    offset_to_index i (index_to_offset i j) = j := by
  rcases hj with hj | ⟨hj0, hj1, hne⟩
  · rw [hj]
    rfl
  · have e1 : index_to_offset i j = j - i - 1 := by
      unfold index_to_offset
      rw [if_neg (by omega)]
      exact toShort_of_range _ (by omega) (by omega)
    rw [e1]
    unfold offset_to_index
    rw [if_neg (by omega), toShort_of_range _ (by omega) (by omega)]
    omega

/-- C8 (as amended): decoding an encoded index gives the index back, for a block index `i`
and a next index `j` among the valid slot indices with `j ≠ i`, and for the sentinel
`j = -1`. -/
theorem offset_round_trip (i j : Int) (hi : 0 ≤ i) (hi2 : i < 2048)
    (hj : j = -1 ∨ (0 ≤ j ∧ j < 2048 ∧ j ≠ i)) :
    offset_to_index i (index_to_offset i j) = j := by
  rcases hj with hj | ⟨hj0, hj1, hne⟩
  · subst hj
    simp [offset_to_index, index_to_offset]
  · have e : toShort (j - i - 1) = j - i - 1 := toShort_of_range _ (by omega) (by omega)
    unfold offset_to_index index_to_offset
    rw [if_neg (by omega), e, if_neg (by omega)]
    have e2 : j - i - 1 + i + 1 = j := by ring
    rw [e2]
    exact toShort_of_range _ (by omega) (by omega)

theorem offset_round_trip_witness :
    offset_to_index 3 (index_to_offset 3 2) = 2 :=
  offset_round_trip 3 2 (by decide) (by decide) (Or.inr ⟨by decide, by decide, by decide⟩)

/-- C8 (counterexample): for `i = j = 3`, both valid slot indices, the encoded offset is the
sentinel `-1` and decodes to `-1`, not to `3`. -/
theorem offset_round_trip_self_fails :
    (0 : Int) ≤ 3 ∧ (3 : Int) < 2048 ∧ index_to_offset 3 3 = -1 ∧
      offset_to_index 3 (index_to_offset 3 3) ≠ 3 := by
  decide

/-- C10: with a page source that succeeds, `new_pool_alloc` returns the failed handle exactly
for `element_length = 0` and `element_length > PAGE_LEN`; otherwise the handle has
`el_len = max element_length sizeof(pool_block_t)`, and `new_pool_alloc(1)` has
`el_len = sizeof(pool_block_t) = 2`. -/
theorem new_pool_alloc_result (n : Nat) :
    ∃ h, new_pool_alloc true n = some h ∧
      (new_pool_alloc_failed h = true ↔ (n = 0 ∨ n > PAGE_LEN)) ∧
      (¬ (n = 0 ∨ n > PAGE_LEN) → h.el_len = max n SIZEOF_BLOCK) ∧
      (new_pool_alloc true 1).map (fun a => a.el_len) = some 2 ∧ SIZEOF_BLOCK = 2 := by
  have h1 : (new_pool_alloc true 1).map (fun a => a.el_len) = some 2 := by
    rw [new_pool_alloc_ok 1 (by decide) (by decide)]
    rfl
  by_cases hn : n = 0 ∨ n > PAGE_LEN
  · refine ⟨NEW_POOL_ALLOC_FAILED, ?_, ?_, ?_, h1, rfl⟩
    · unfold new_pool_alloc
      rw [if_pos hn]
    · simp [new_pool_alloc_failed, NEW_POOL_ALLOC_FAILED, hn]
    · intro h; exact absurd hn h
  · have hn1 : 1 ≤ n := by omega
    have hn2 : n ≤ PAGE_LEN := by omega
    refine ⟨_, new_pool_alloc_ok n hn1 hn2, ?_, ?_, h1, rfl⟩
    · simp [new_pool_alloc_failed, hn]
    · intro _; rfl

theorem new_pool_alloc_fresh (n : Nat) (h1 : 1 ≤ n) (h2 : n ≤ PAGE_LEN) :
    ∃ h m, new_pool_alloc true n = some h ∧ FreshLinks h m ∧ h.first_index = 0 ∧
      h.el_len = max n 2 ∧
      (∀ x, m x = if x = (PAGE_LEN / h.el_len - 1) * h.el_len then -1 else zero_page x) := by
  refine ⟨_, _, new_pool_alloc_ok n h1 h2, ⟨⟨rfl, ?_, ?_⟩, ?_, ?_⟩, rfl, rfl, fun x => rfl⟩
  all_goals rw [page_len_eq] at *
  all_goals dsimp only
  · omega
  · omega
  · intro i hi
    rw [if_neg]
    · rfl
    · intro hc
      have := slot_offset_inj (by omega) hc
      omega
  · rw [if_pos rfl]

theorem decode_fresh (h : pool_alloc_t) (m : Page) (hl : FreshLinks h m) (k d : Nat)
    (hk : k + (d + 1) = 4096 / h.el_len) :
    offset_to_index k (m (k * h.el_len)) = if d = 0 then -1 else ((k + 1 : Nat) : Int) := by
  have hN := slot_count_le hl.valid
  by_cases hd : d = 0
  · have e : k = 4096 / h.el_len - 1 := by omega
    rw [if_pos hd, e, hl.last]
    rfl
  · rw [if_neg hd, hl.zero k (by omega)]
    unfold offset_to_index
    rw [if_neg (by decide)]
    rw [toShort_of_range _ (by omega) (by omega)]
    push_cast
    ring

theorem alloc_n_fresh (m : Page) (d : Nat) : ∀ (h : pool_alloc_t) (k : Nat), FreshLinks h m →
    k + d = 4096 / h.el_len → h.first_index = (if d = 0 then -1 else (k : Int)) →
    alloc_n d h = some ((List.range' k d).map (fun i => some (i * h.el_len)),
      { h with first_index := -1 }) := by
  induction d with
  | zero =>
    intro h k _ _ hf
    rw [if_pos rfl] at hf
    cases h
    simp only at hf
    subst hf
    rfl
  | succ d ih =>
    intro h k hl hk hf
    rw [if_neg (by omega)] at hf
    have hstep := pool_alloc_slot hl.valid k (by omega) hf
    rw [decode_fresh h m hl k d hk] at hstep
    have hl2 : FreshLinks { h with first_index := if d = 0 then -1 else ((k + 1 : Nat) : Int) } m :=
      ⟨⟨hl.valid.pool_eq, hl.valid.two_le, hl.valid.le_page⟩, hl.zero, hl.last⟩
    have := ih _ (k + 1) hl2 (by show k + 1 + d = 4096 / h.el_len; omega) rfl
    unfold alloc_n
    rw [hstep]
    simp only [Option.bind_eq_bind, Option.some_bind, this, Option.pure_def, List.range'_succ,
      List.map_cons]

theorem free_list_fresh (m : Page) (d : Nat) : ∀ (h : pool_alloc_t) (k : Nat), FreshLinks h m →
    k + d = 4096 / h.el_len →
    free_list h (d + 1) (if d = 0 then -1 else (k : Int)) =
      some ((List.range' k d).map (fun i : Nat => (i : Int))) := by
  induction d with
  | zero =>
    intro h k _ _
    simp [free_list, get_block]
  | succ d ih =>
    intro h k hl hk
    rw [if_neg (by omega)]
    have hi : k < 4096 / h.el_len := by omega
    unfold free_list
    rw [get_block_slot hl.valid k hi]
    simp only [Option.bind_eq_bind, Option.some_bind, hl.valid.pool_eq, load,
      accessible_slot h.el_len k hl.valid.two_le hi, if_true, decode_fresh h m hl k d hk]
    have := ih h (k + 1) hl (by omega)
    simp only [Nat.cast_add, Nat.cast_one] at this ⊢
    rw [this]
    simp [List.range'_succ]

/-- C9: after a successful `new_pool_alloc` the handle has `first_index = 0`; the page is the
zero-filled page with the single value `-1` written into the link of slot `N - 1`,
`N = PAGE_LEN / el_len`; every slot `i < N - 1` holds the link `0`, which decodes to `i + 1`;
and following the links from `first_index` visits the slots `0, 1, ..., N - 1` in order and
then ends. -/
theorem fresh_pool_layout (n : Nat) (h1 : 1 ≤ n) (h2 : n ≤ PAGE_LEN) :
    ∃ h m, new_pool_alloc true n = some h ∧ h.pool = some m ∧ h.first_index = 0 ∧
      (∀ x, m x = if x = (PAGE_LEN / h.el_len - 1) * h.el_len then -1 else zero_page x) ∧
      (∀ i : Nat, i + 1 < PAGE_LEN / h.el_len →
        m (i * h.el_len) = 0 ∧ offset_to_index i (m (i * h.el_len)) = (i : Int) + 1) ∧
      m ((PAGE_LEN / h.el_len - 1) * h.el_len) = -1 ∧
      free_list h (PAGE_LEN / h.el_len + 1) h.first_index =
        some ((List.range (PAGE_LEN / h.el_len)).map (fun i : Nat => (i : Int))) := by
  obtain ⟨h, m, hnew, hl, hf, _, hm⟩ := new_pool_alloc_fresh n h1 h2
  have hb := last_slot_bounds _ hl.valid.two_le hl.valid.le_page
  refine ⟨h, m, hnew, hl.valid.pool_eq, hf, hm, ?_, ?_, ?_⟩
  · intro i hi
    rw [page_len_eq] at hi
    have hz := hl.zero i hi
    refine ⟨hz, ?_⟩
    have hd := decode_fresh h m hl i (4096 / h.el_len - i - 2 + 1) (by omega)
    rw [if_neg (by omega)] at hd
    rw [hd]
    push_cast
    ring
  · rw [page_len_eq]
    exact hl.last
  · have := free_list_fresh m (4096 / h.el_len) h 0 hl (by omega)
    rw [if_neg (by omega)] at this
    rw [List.range_eq_range', page_len_eq, hf]
    exact this

theorem fresh_pool_layout_witness :
    ∃ h m, new_pool_alloc true 4 = some h ∧ h.pool = some m ∧ h.first_index = 0 ∧
      (∀ x, m x = if x = (PAGE_LEN / h.el_len - 1) * h.el_len then -1 else zero_page x) ∧
      (∀ i : Nat, i + 1 < PAGE_LEN / h.el_len →
        m (i * h.el_len) = 0 ∧ offset_to_index i (m (i * h.el_len)) = (i : Int) + 1) ∧
      m ((PAGE_LEN / h.el_len - 1) * h.el_len) = -1 ∧
      free_list h (PAGE_LEN / h.el_len + 1) h.first_index =
        some ((List.range (PAGE_LEN / h.el_len)).map (fun i : Nat => (i : Int))) :=
  fresh_pool_layout 4 (by decide) (by decide)

/-- The state reached by `N = PAGE_LEN / el_len` calls of `pool_alloc` on a fresh pool. -/
theorem exhaust_fresh {h : pool_alloc_t} {m : Page} (hl : FreshLinks h m)
    (hf : h.first_index = 0) :
    alloc_n (4096 / h.el_len) h =
      some ((List.range (4096 / h.el_len)).map (fun i => some (i * h.el_len)),
        { h with first_index := -1 }) := by
  have hb := last_slot_bounds _ hl.valid.two_le hl.valid.le_page
  have hrun := alloc_n_fresh m (4096 / h.el_len) h 0 hl (by omega)
    (by rw [if_neg (by omega), hf]; rfl)
  rw [List.range_eq_range']
  exact hrun

/-- C5: for every `element_length` in `[1, PAGE_LEN]`, after `new_pool_alloc` with effective
`el_len = max element_length 2` and `N = PAGE_LEN / el_len`, the first `N` calls of
`pool_alloc` return the pairwise distinct non-null pointers at the page offsets
`index * el_len`, `index = 0, ..., N - 1`, and call `N + 1` returns `NULL` and leaves the
handle (`first_index` and the page) unchanged. -/
theorem pool_exhaustion (n : Nat) (h1 : 1 ≤ n) (h2 : n ≤ PAGE_LEN) :
    ∃ h ptrs hN, new_pool_alloc true n = some h ∧ h.el_len = max n SIZEOF_BLOCK ∧
      alloc_n (PAGE_LEN / h.el_len) h = some (ptrs, hN) ∧
      ptrs = (List.range (PAGE_LEN / h.el_len)).map (fun i => some (i * h.el_len)) ∧
      ptrs.Nodup ∧ pool_alloc hN = some (none, hN) := by
  obtain ⟨h, m, hnew, hl, hf, hel, _⟩ := new_pool_alloc_fresh n h1 h2
  refine ⟨h, (List.range (PAGE_LEN / h.el_len)).map (fun i => some (i * h.el_len)),
    { h with first_index := -1 }, hnew, hel, ?_, rfl, ?_, ?_⟩
  · rw [page_len_eq]
    exact exhaust_fresh hl hf
  · refine (List.nodup_range _).map_on ?_
    intro i _ j _ hij
    exact slot_offset_inj hl.valid.two_le (Option.some.inj hij)
  · exact pool_alloc_null rfl

theorem pool_exhaustion_witness :
    ∃ h ptrs hN, new_pool_alloc true 4 = some h ∧ h.el_len = max 4 SIZEOF_BLOCK ∧
      alloc_n (PAGE_LEN / h.el_len) h = some (ptrs, hN) ∧
      ptrs = (List.range (PAGE_LEN / h.el_len)).map (fun i => some (i * h.el_len)) ∧
      ptrs.Nodup ∧ pool_alloc hN = some (none, hN) :=
  pool_exhaustion 4 (by decide) (by decide)

theorem chain_congr {m m' : Page} {el : Nat} : ∀ (L : List Nat) (f : Int),
    (∀ i ∈ L, m' (i * el) = m (i * el)) → Chain m el f L → Chain m' el f L := by
  intro L
  induction L with
  | nil => intro f _ hc; exact hc
  | cons i L ih =>
    intro f hm hc
    refine ⟨hc.1, ?_⟩
    rw [hm i (List.mem_cons_self i L)]
    exact ih _ (fun j hj => hm j (List.mem_cons_of_mem i hj)) hc.2

theorem chain_fresh (m : Page) (d : Nat) : ∀ (h : pool_alloc_t) (k : Nat), FreshLinks h m →
    k + d = 4096 / h.el_len →
    Chain m h.el_len (if d = 0 then -1 else (k : Int)) (List.range' k d) := by
  induction d with
  | zero => intro h k _ _; rfl
  | succ d ih =>
    intro h k hl hk
    rw [if_neg (by omega), List.range'_succ]
    refine ⟨rfl, ?_⟩
    rw [decode_fresh h m hl k d hk]
    exact ih h (k + 1) hl (by omega)

/-- The head of a chain is the sentinel or a valid index that occurs in the chain. -/
theorem chain_head {m : Page} {el : Nat} {f : Int} {L : List Nat} (hc : Chain m el f L) :
    f = -1 ∨ ∃ i ∈ L, f = (i : Int) := by
  cases L with
  | nil => exact Or.inl hc
  | cons i L => exact Or.inr ⟨i, List.mem_cons_self i L, hc.1⟩

theorem inv_init (n : Nat) (h : pool_alloc_t) (h1 : 1 ≤ n) (h2 : n ≤ PAGE_LEN)
    (hnew : new_pool_alloc true n = some h) :
    ∃ m, Inv h [] m (List.range (4096 / h.el_len)) := by
  obtain ⟨h0, m, hnew0, hl, hf, _, _⟩ := new_pool_alloc_fresh n h1 h2
  rw [hnew] at hnew0
  cases Option.some.inj hnew0
  have hb := last_slot_bounds _ hl.valid.two_le hl.valid.le_page
  refine ⟨m, hl.valid, ?_, List.nodup_range _, List.nodup_nil, ?_, ?_, ?_⟩
  · have := chain_fresh m (4096 / h.el_len) h 0 hl (by omega)
    rw [if_neg (by omega)] at this
    rw [List.range_eq_range', hf]
    exact this
  · intro i hi
    exact List.mem_range.1 hi
  · intro p hp
    cases hp
  · intro i hi
    exact Or.inl (List.mem_range.2 hi)

theorem inv_alloc {h h' : pool_alloc_t} {live : List Nat} {m : Page} {L : List Nat} {p : Nat}
    (hi : Inv h live m L) (ha : pool_alloc h = some (some p, h')) :
    ∃ i L', L = i :: L' ∧ p = i * h.el_len ∧ h'.el_len = h.el_len ∧ Inv h' (p :: live) m L' := by
  cases L with
  | nil =>
    have hc : h.first_index = -1 := hi.chain
    rw [pool_alloc_null hc] at ha
    cases ha
  | cons i L' =>
    have hc := hi.chain
    have hib := hi.bound i (List.mem_cons_self i L')
    rw [pool_alloc_slot hi.valid i hib hc.1] at ha
    cases ha
    have hnd := List.nodup_cons.1 hi.nodup
    refine ⟨i, L', rfl, rfl, rfl, ⟨hi.valid.pool_eq, hi.valid.two_le, hi.valid.le_page⟩, hc.2,
      hnd.2, ?_, ?_, ?_, ?_⟩
    · refine List.nodup_cons.2 ⟨?_, hi.live_nodup⟩
      intro hmem
      obtain ⟨j, _, hpj, hjL⟩ := hi.live_slot _ hmem
      have := slot_offset_inj hi.valid.two_le hpj
      exact hjL (this ▸ List.mem_cons_self i L')
    · intro j hj
      exact hi.bound j (List.mem_cons_of_mem i hj)
    · intro q hq
      rcases List.mem_cons.1 hq with hq | hq
      · exact ⟨i, hib, hq, hnd.1⟩
      · obtain ⟨j, hjb, hpj, hjL⟩ := hi.live_slot q hq
        exact ⟨j, hjb, hpj, fun hm => hjL (List.mem_cons_of_mem i hm)⟩
    · intro j hj
      rcases hi.cover j hj with hm | hm
      · rcases List.mem_cons.1 hm with hm | hm
        · exact Or.inr (hm ▸ List.mem_cons_self _ _)
        · exact Or.inl hm
      · exact Or.inr (List.mem_cons_of_mem _ hm)

theorem inv_free {h h' : pool_alloc_t} {live : List Nat} {m : Page} {L : List Nat} {p : Nat}
    (hi : Inv h live m L) (hp : p ∈ live) (hfree : pool_free h (some p) = some h') :
    ∃ j m', p = j * h.el_len ∧ h'.el_len = h.el_len ∧ Inv h' (live.erase p) m' (j :: L) := by
  obtain ⟨j, hjb, hpj, hjL⟩ := hi.live_slot p hp
  have hN := slot_count_le hi.valid
  subst hpj
  rw [pool_free_slot hi.valid j hjb] at hfree
  cases hfree
  have hrt : offset_to_index j (index_to_offset j h.first_index) = h.first_index := by
    apply decode_encode j _ (by omega) (by omega)
    rcases chain_head hi.chain with hc | ⟨i, hiL, hc⟩
    · exact Or.inl hc
    · have := hi.bound i hiL
      refine Or.inr ⟨by omega, by omega, ?_⟩
      rw [hc]
      intro hij
      have : i = j := by omega
      exact hjL (this ▸ hiL)
  refine ⟨j, _, rfl, rfl, ⟨rfl, hi.valid.two_le, hi.valid.le_page⟩, ⟨rfl, ?_⟩,
    List.nodup_cons.2 ⟨hjL, hi.nodup⟩, hi.live_nodup.erase _, ?_, ?_, ?_⟩
  · show Chain _ h.el_len (offset_to_index j (if j * h.el_len = j * h.el_len then _ else _)) L
    rw [if_pos rfl, hrt]
    refine chain_congr L _ ?_ hi.chain
    intro i hiL
    show (if i * h.el_len = j * h.el_len then _ else _) = _
    rw [if_neg]
    intro hc
    exact hjL (slot_offset_inj hi.valid.two_le hc ▸ hiL)
  · intro i hiL
    rcases List.mem_cons.1 hiL with hij | hiL
    · exact hij ▸ hjb
    · exact hi.bound i hiL
  · intro q hq
    have hq2 := (hi.live_nodup.mem_erase_iff).1 hq
    obtain ⟨i, hib, hqi, hiL⟩ := hi.live_slot q hq2.2
    refine ⟨i, hib, hqi, ?_⟩
    intro hm
    rcases List.mem_cons.1 hm with hij | hm
    · exact hq2.1 (by rw [hqi, hij])
    · exact hiL hm
  · intro i hib
    rcases hi.cover i hib with hm | hm
    · exact Or.inl (List.mem_cons_of_mem _ hm)
    · by_cases hij : i = j
      · exact Or.inl (hij ▸ List.mem_cons_self _ _)
      · refine Or.inr ((hi.live_nodup.mem_erase_iff).2 ⟨?_, hm⟩)
        intro hc
        exact hij (slot_offset_inj hi.valid.two_le hc)

theorem inv_write {h : pool_alloc_t} {live : List Nat} {m : Page} {L : List Nat} {p : Nat}
    (v : Int) (hi : Inv h live m L) (hp : p ∈ live) :
    Inv { h with pool := some (fun x => if x = p then v else m x) } live
      (fun x => if x = p then v else m x) L := by
  obtain ⟨j, _, hpj, hjL⟩ := hi.live_slot p hp
  refine ⟨⟨rfl, hi.valid.two_le, hi.valid.le_page⟩, ?_, hi.nodup, hi.live_nodup, hi.bound,
    hi.live_slot, hi.cover⟩
  refine chain_congr L _ ?_ hi.chain
  intro i hiL
  show (if i * h.el_len = p then _ else _) = _
  rw [if_neg]
  intro hc
  rw [hpj] at hc
  exact hjL (slot_offset_inj hi.valid.two_le hc ▸ hiL)

/-- Every state reachable by valid use satisfies the free-list invariant. -/
theorem reach_inv {h : pool_alloc_t} {live : List Nat} (hr : Reach h live) :
    ∃ m L, Inv h live m L := by
  induction hr with
  | init n h h1 h2 hnew =>
    obtain ⟨m, hi⟩ := inv_init n h h1 h2 hnew
    exact ⟨m, _, hi⟩
  | alloc h live p h' _ ha ih =>
    obtain ⟨m, L, hi⟩ := ih
    obtain ⟨i, L', _, _, _, hi'⟩ := inv_alloc hi ha
    exact ⟨m, L', hi'⟩
  | free h live p h' _ hp hfree ih =>
    obtain ⟨m, L, hi⟩ := ih
    obtain ⟨j, m', _, _, hi'⟩ := inv_free hi hp hfree
    exact ⟨m', _, hi'⟩
  | write h live p v m0 _ hp hpool ih =>
    obtain ⟨m, L, hi⟩ := ih
    have : m0 = m := Option.some.inj (hpool.symm.trans hi.valid.pool_eq)
    subst this
    exact ⟨_, L, inv_write v hi hp⟩

/-- C6: in every pool state reachable by valid use, for pairwise distinct currently allocated
slots `A`, `B`, `C`: after `pool_free` on `A`, then `B`, then `C`, three calls of `pool_alloc`
return `C`, then `B`, then `A`. -/
theorem pool_lifo (h : pool_alloc_t) (live : List Nat) (A B C : Nat) (hr : Reach h live)
    (hA : A ∈ live) (hB : B ∈ live) (hC : C ∈ live) (hAB : A ≠ B) (hAC : A ≠ C) (hBC : B ≠ C) :
    ∃ h1 h2 h3 h4 h5 h6, pool_free h (some A) = some h1 ∧ pool_free h1 (some B) = some h2 ∧
      pool_free h2 (some C) = some h3 ∧ pool_alloc h3 = some (some C, h4) ∧
      pool_alloc h4 = some (some B, h5) ∧ pool_alloc h5 = some (some A, h6) := by
  obtain ⟨m, L, hi⟩ := reach_inv hr
  have hv := hi.valid
  have hN := slot_count_le hv
  obtain ⟨a, ha, hAa, _⟩ := hi.live_slot A hA
  obtain ⟨b, hb, hBb, _⟩ := hi.live_slot B hB
  obtain ⟨c, hc, hCc, _⟩ := hi.live_slot C hC
  subst hAa hBb hCc
  have hab : a ≠ b := fun e => hAB (by rw [e])
  have hbc : b ≠ c := fun e => hBC (by rw [e])
  have hbc' : b * h.el_len ≠ c * h.el_len := hBC
  have hv1 : Valid { h with pool := some (fun x => if x = a * h.el_len then
      index_to_offset a h.first_index else m x), first_index := (a : Int) } _ :=
    ⟨rfl, hv.two_le, hv.le_page⟩
  have e1 := pool_free_slot hv a ha
  have e2 := pool_free_slot hv1 b hb
  have hv2 : Valid { h with pool := some (fun x => if x = b * h.el_len then
      index_to_offset b (a : Int) else if x = a * h.el_len then
      index_to_offset a h.first_index else m x), first_index := (b : Int) } _ :=
    ⟨rfl, hv.two_le, hv.le_page⟩
  have e3 := pool_free_slot hv2 c hc
  have hv3 : Valid { h with pool := some (fun x => if x = c * h.el_len then
      index_to_offset c (b : Int) else if x = b * h.el_len then
      index_to_offset b (a : Int) else if x = a * h.el_len then
      index_to_offset a h.first_index else m x), first_index := (c : Int) } _ :=
    ⟨rfl, hv.two_le, hv.le_page⟩
  have e4 := pool_alloc_slot hv3 c hc rfl
  have r4 : offset_to_index c (index_to_offset c b) = b :=
    decode_encode c b (by omega) (by omega) (Or.inr ⟨by omega, by omega, by omega⟩)
  have r5 : offset_to_index b (index_to_offset b a) = a :=
    decode_encode b a (by omega) (by omega) (Or.inr ⟨by omega, by omega, by omega⟩)
  dsimp only at e4
  rw [if_pos rfl, r4] at e4
  have hv4 : Valid { h with pool := some (fun x => if x = c * h.el_len then
      index_to_offset c (b : Int) else if x = b * h.el_len then
      index_to_offset b (a : Int) else if x = a * h.el_len then
      index_to_offset a h.first_index else m x), first_index := (b : Int) } _ :=
    ⟨rfl, hv.two_le, hv.le_page⟩
  have e5 := pool_alloc_slot hv4 b hb rfl
  dsimp only at e5
  rw [if_neg hbc', if_pos rfl, r5] at e5
  have hv5 : Valid { h with pool := some (fun x => if x = c * h.el_len then
      index_to_offset c (b : Int) else if x = b * h.el_len then
      index_to_offset b (a : Int) else if x = a * h.el_len then
      index_to_offset a h.first_index else m x), first_index := (a : Int) } _ :=
    ⟨rfl, hv.two_le, hv.le_page⟩
  have e6 := pool_alloc_slot hv5 a ha rfl
  exact ⟨_, _, _, _, _, _, e1, e2, e3, e4, e5, e6⟩

theorem lifo_state_reach : Reach lifo_state [2048, 1024, 0] := by
  have h0 : Reach { lifo_state with first_index := 0 } [] :=
    Reach.init 1024 _ (by decide) (by decide) rfl
  have h1 := Reach.alloc _ _ 0 { lifo_state with first_index := 1 } h0 rfl
  have h2 := Reach.alloc _ _ 1024 { lifo_state with first_index := 2 } h1 rfl
  exact Reach.alloc _ _ 2048 lifo_state h2 rfl

theorem pool_lifo_witness :
    ∃ h1 h2 h3 h4 h5 h6, pool_free lifo_state (some 0) = some h1 ∧
      pool_free h1 (some 1024) = some h2 ∧ pool_free h2 (some 2048) = some h3 ∧
      pool_alloc h3 = some (some 2048, h4) ∧ pool_alloc h4 = some (some 1024, h5) ∧
      pool_alloc h5 = some (some 0, h6) :=
  pool_lifo lifo_state [2048, 1024, 0] 0 1024 2048 lifo_state_reach (by decide) (by decide)
    (by decide) (by decide) (by decide) (by decide)

theorem alloc_n_succ_last (n : Nat) : ∀ (h : pool_alloc_t) (ps : List (Option Nat))
    (h1 : pool_alloc_t) (q : Option Nat) (h2 : pool_alloc_t),
    alloc_n n h = some (ps, h1) → pool_alloc h1 = some (q, h2) →
    alloc_n (n + 1) h = some (ps ++ [q], h2) := by
  induction n with
  | zero =>
    intro h ps h1 q h2 e1 e2
    cases e1
    simp [alloc_n, e2]
  | succ n ih =>
    intro h ps h1 q h2 e1 e2
    rw [alloc_n] at e1
    cases hpa : pool_alloc h with
    | none => rw [hpa] at e1; cases e1
    | some r =>
      rw [hpa] at e1
      simp only [Option.bind_eq_bind, Option.some_bind] at e1
      cases hrest : alloc_n n r.2 with
      | none => rw [hrest] at e1; cases e1
      | some rest =>
        rw [hrest] at e1
        cases e1
        have := ih r.2 rest.1 rest.2 q h2 hrest e2
        rw [alloc_n, hpa]
        simp [this]

/-- Pushing the slots of a duplicate-free list `L` onto the free list and popping as many
slots again returns them in reverse order and restores `first_index`. -/
theorem push_pop (L : List Nat) : ∀ (h : pool_alloc_t) (m : Page), Valid h m → L.Nodup →
    (∀ j ∈ L, j < 4096 / h.el_len) → (∀ j ∈ L, (j : Int) ≠ h.first_index) →
    (h.first_index = -1 ∨ (0 ≤ h.first_index ∧ h.first_index < 2048)) →
    ∃ h1 m1, free_all (L.map (fun j => j * h.el_len)) h = some h1 ∧ Valid h1 m1 ∧
      h1.el_len = h.el_len ∧ (∀ x, (∀ j ∈ L, x ≠ j * h.el_len) → m1 x = m x) ∧
      alloc_n L.length h1 = some (L.reverse.map (fun j => some (j * h.el_len)),
        { h1 with first_index := h.first_index }) := by
  induction L with
  | nil =>
    intro h m hv _ _ _ _
    exact ⟨h, m, rfl, hv, rfl, fun _ _ => rfl, rfl⟩
  | cons a L ih =>
    intro h m hv hnd hb hne hf
    have hN := slot_count_le hv
    have ha := hb a (List.mem_cons_self a L)
    have hnd2 := List.nodup_cons.1 hnd
    have e1 := pool_free_slot hv a ha
    obtain ⟨h1, m1, ef, hv1, hel, hm1, ea⟩ := ih
      { h with pool := some (fun x => if x = a * h.el_len then index_to_offset a h.first_index
          else m x), first_index := (a : Int) } _ ⟨rfl, hv.two_le, hv.le_page⟩ hnd2.2
      (fun j hj => hb j (List.mem_cons_of_mem a hj))
      (fun j hj e => hnd2.1 ((Int.ofNat.inj e : j = a) ▸ hj))
      (Or.inr ⟨by show (0 : Int) ≤ a; omega, by show (a : Int) < 2048; omega⟩)
    dsimp only at ef hel hm1 ea
    have hrt : offset_to_index a (index_to_offset a h.first_index) = h.first_index := by
      apply decode_encode a _ (by omega) (by omega)
      rcases hf with hf | hf
      · exact Or.inl hf
      · exact Or.inr ⟨hf.1, hf.2, fun e => hne a (List.mem_cons_self a L) e.symm⟩
    have hv1' : Valid { h1 with first_index := (a : Int) } m1 :=
      ⟨hv1.pool_eq, hv1.two_le, hv1.le_page⟩
    have estep := pool_alloc_slot hv1' a (by show a < 4096 / h1.el_len; rw [hel]; exact ha) rfl
    have hkey : a * h1.el_len = a * h.el_len := by rw [hel]
    dsimp only at estep
    rw [hkey, hm1 (a * h.el_len) (fun j hj e => hnd2.1
      (slot_offset_inj hv.two_le e ▸ hj)), if_pos rfl, hrt] at estep
    refine ⟨h1, m1, ?_, hv1, hel, ?_, ?_⟩
    · simp only [List.map_cons, free_all, e1, Option.bind_eq_bind, Option.some_bind]
      exact ef
    · intro x hx
      rw [hm1 x (fun j hj => hx j (List.mem_cons_of_mem a hj)),
        if_neg (hx a (List.mem_cons_self a L))]
    · have := alloc_n_succ_last L.length h1 _ _ _ _ ea estep
      rw [List.length_cons, this, List.reverse_cons, List.map_append]
      rfl

/-- C7: for every valid element length with slot count `N`, after `N` calls of `pool_alloc`
have exhausted a fresh pool and the `N` slots have been given back with `pool_free` in the
order of an arbitrary permutation `P` of them, the next `N` calls of `pool_alloc` succeed and
return `N` pairwise distinct slots (the slots of `P` in reverse order), and the call after
them returns `NULL`. -/
theorem pool_refill (n : Nat) (P : List Nat) (h1 : 1 ≤ n) (h2 : n ≤ PAGE_LEN)
    (hP : P.Perm ((List.range (PAGE_LEN / max n 2)).map (fun i => i * max n 2))) :
    ∃ h hN hF hE, new_pool_alloc true n = some h ∧ h.el_len = max n 2 ∧
      alloc_n (PAGE_LEN / h.el_len) h =
        some ((List.range (PAGE_LEN / h.el_len)).map (fun i => some (i * h.el_len)), hN) ∧
      free_all P hN = some hF ∧
      alloc_n (PAGE_LEN / h.el_len) hF = some (P.reverse.map some, hE) ∧
      P.reverse.Nodup ∧ P.reverse.length = PAGE_LEN / h.el_len ∧
      pool_alloc hE = some (none, hE) := by
  obtain ⟨h, m, hnew, hl, hf, hel, _⟩ := new_pool_alloc_fresh n h1 h2
  rw [← hel, page_len_eq] at hP
  rw [page_len_eq]
  have hv := hl.valid
  have hpos : 0 < h.el_len := by have := hv.two_le; omega
  have hLperm : (P.map (fun p => p / h.el_len)).Perm (List.range (4096 / h.el_len)) := by
    have := hP.map (fun p => p / h.el_len)
    rw [List.map_map] at this
    have hid : (List.range (4096 / h.el_len)).map
        ((fun p => p / h.el_len) ∘ (fun i => i * h.el_len)) = List.range (4096 / h.el_len) := by
      conv_rhs => rw [← List.map_id (List.range (4096 / h.el_len))]
      refine List.map_congr_left ?_
      intro i _
      simp [Nat.mul_div_cancel i hpos]
    rw [hid] at this
    exact this
  have hPL : (P.map (fun p => p / h.el_len)).map (fun j => j * h.el_len) = P := by
    rw [List.map_map]
    conv_rhs => rw [← List.map_id P]
    refine List.map_congr_left ?_
    intro p hp
    obtain ⟨i, _, hi⟩ := List.mem_map.1 ((hP.mem_iff).1 hp)
    subst hi
    simp [Nat.mul_div_cancel i hpos]
  have hPnd : P.Nodup := by
    refine (hP.nodup_iff).2 ((List.nodup_range _).map_on ?_)
    intro i _ j _ hij
    exact slot_offset_inj hv.two_le hij
  obtain ⟨hF, mF, efree, hvF, helF, _, ealloc⟩ := push_pop (P.map (fun p => p / h.el_len))
    { h with first_index := -1 } m ⟨hv.pool_eq, hv.two_le, hv.le_page⟩
    ((hLperm.nodup_iff).2 (List.nodup_range _))
    (fun j hj => List.mem_range.1 ((hLperm.mem_iff).1 hj))
    (fun j _ e => by have e' : (j : Int) = -1 := e; omega)
    (Or.inl rfl)
  dsimp only at efree helF ealloc
  rw [hPL] at efree
  have hmap0 : (P.map (fun p => p / h.el_len)).map (fun j => some (j * h.el_len))
      = P.map some := by
    rw [List.map_map]
    refine List.map_congr_left ?_
    intro p hp
    obtain ⟨i, _, hi⟩ := List.mem_map.1 ((hP.mem_iff).1 hp)
    subst hi
    simp [Nat.mul_div_cancel i hpos]
  have hlen : P.length = 4096 / h.el_len := by
    rw [hP.length_eq, List.length_map, List.length_range]
  rw [List.length_map, List.map_reverse, hmap0, ← List.map_reverse, hlen] at ealloc
  refine ⟨h, { h with first_index := -1 }, hF, { hF with first_index := -1 }, hnew, hel,
    exhaust_fresh hl hf, efree, ealloc, List.nodup_reverse.2 hPnd, ?_, pool_alloc_null rfl⟩
  rw [List.length_reverse, hlen]

theorem pool_refill_witness :
    ∃ h hN hF hE, new_pool_alloc true 2048 = some h ∧ h.el_len = max 2048 2 ∧
      alloc_n (PAGE_LEN / h.el_len) h =
        some ((List.range (PAGE_LEN / h.el_len)).map (fun i => some (i * h.el_len)), hN) ∧
      free_all [2048, 0] hN = some hF ∧
      alloc_n (PAGE_LEN / h.el_len) hF = some ([2048, 0].reverse.map some, hE) ∧
      [2048, 0].reverse.Nodup ∧ [2048, 0].reverse.length = PAGE_LEN / h.el_len ∧
      pool_alloc hE = some (none, hE) :=
  pool_refill 2048 [2048, 0] (by decide) (by decide) (by decide)

end Pool

namespace Buddy

/-- C1 (evaluation at the failing input): from the fresh page, `buddy_alloc(2044)`,
`buddy_alloc(1)`, `buddy_alloc(1)` return the pointers 4, 2052 and 2060; after
`buddy_free(2052)`, `buddy_free(4)` and `buddy_free(2060)`, each on a live pointer and
together freeing every live pointer, the top block is `{taken = false, level = 13}`, not
`{taken = false, level = PAGE_LEVEL}`. -/
theorem buddy_closure_trace :
    (do let a ← buddy_alloc true fresh 2044
        let b ← buddy_alloc true a.2 1
        let c ← buddy_alloc true b.2 1
        let g4 ← buddy_free c.2 b.1
        let g5 ← buddy_free g4 a.1
        let g6 ← buddy_free g5 c.1
        let m ← g6
        pure ([a.1, b.1, c.1], m 0))
      = some ([some 4, some 2052, some 2060], { taken := false, level := 13 }) := by
  decide

/-- C2 (evaluation at the failing input): from the fresh page, `buddy_alloc(2044)`,
`buddy_alloc(1)`, `buddy_alloc(1)` return 4, 2052 and 2060; after `buddy_free(2052)` and
`buddy_free(4)` the pointer 2060 (block `[2056, 2064)`) is still live, yet
`buddy_alloc(2044)` returns the block `[0, 2048)`, `buddy_alloc(1)` the block
`[2048, 2056)` and `buddy_alloc(1)` the pointer 2060 again; alternatively `buddy_alloc(4092)`
returns the block at 0 with level 12, the range `[0, 4096)`, which contains `[2056, 2064)`. -/
theorem buddy_ownership_trace :
    (do let a ← buddy_alloc true fresh 2044
        let b ← buddy_alloc true a.2 1
        let c ← buddy_alloc true b.2 1
        let g4 ← buddy_free c.2 b.1
        let g5 ← buddy_free g4 a.1
        let d ← buddy_alloc true g5 2044
        let e ← buddy_alloc true d.2 1
        let f ← buddy_alloc true e.2 1
        let w ← buddy_alloc true g5 4092
        let m ← w.2
        pure ([a.1, b.1, c.1, d.1, e.1, f.1, w.1], [m 0, m 2056]))
      = some ([some 4, some 2052, some 2060, some 4, some 2052, some 2060, some 4],
          [{ taken := true, level := 12 }, { taken := true, level := 3 }]) := by
  decide

/-- C3 (evaluation at the failing input): `get_level(2^64 - 1)` is 3, because
`len + sizeof(head_t)` wraps to 3, and on the fresh page `buddy_alloc(2^64 - 1)` returns the
non-null pointer 4 to a block of level 3, whose usable size `2^3 - 4 = 4` is smaller than
the requested length and whose payload range `[4, 4 + len)` leaves the page. -/
theorem buddy_alloc_size_max :
    (do let l ← get_level (2 ^ 64 - 1)
        let a ← buddy_alloc true fresh (2 ^ 64 - 1)
        let m ← a.2
        pure (l, a.1, m 0))
      = some (3, some 4, { taken := true, level := 3 }) ∧
      2 ^ 3 - SIZEOF_HEAD < 2 ^ 64 - 1 ∧ PAGE_LEN < 4 + (2 ^ 64 - 1) := by
  decide

/-- C4 (evaluation at the failing input): in the state reached from the fresh page by
`buddy_alloc(2044)`, `buddy_alloc(1)`, `buddy_alloc(1)` and `buddy_free` of the second
pointer, the free capacity is 2040; `buddy_alloc(12)` returns the pointer 2068, and after
`buddy_free(2068)` the free capacity is 2048. -/
theorem buddy_round_trip_trace :
    (do let a ← buddy_alloc true fresh 2044
        let b ← buddy_alloc true a.2 1
        let c ← buddy_alloc true b.2 1
        let g4 ← buddy_free c.2 b.1
        let m4 ← g4
        let before ← free_capacity m4 (PAGE_LEN + 1) 0
        let d ← buddy_alloc true g4 12
        let g6 ← buddy_free d.2 d.1
        let m6 ← g6
        let after ← free_capacity m6 (PAGE_LEN + 1) 0
        pure ([a.1, b.1, c.1, d.1], before, after))
      = some ([some 4, some 2052, some 2060, some 2068], 2040, 2048) := by
  decide

theorem buddy_page_len_eq : PAGE_LEN = 4096 := by decide

theorem eight_le_pow {l : Nat} (h3 : 3 ≤ l) : 8 ≤ 2 ^ l :=
  calc 8 = 2 ^ 3 := by norm_num
    _ ≤ 2 ^ l := Nat.pow_le_pow_right (by norm_num) h3

theorem mod_four_of_aligned {a l : Nat} (h3 : 3 ≤ l) (ha : a % 2 ^ l = 0) : a % 4 = 0 := by
  have h1 : (2 : Nat) ^ 2 ∣ 2 ^ l := pow_dvd_pow 2 (by omega)
  have h2 : 2 ^ l ∣ a := Nat.dvd_of_mod_eq_zero ha
  obtain ⟨k, hk⟩ := h1.trans h2
  omega

theorem accessible_block {a l : Nat} (h3 : 3 ≤ l) (ha : a % 2 ^ l = 0)
    (hb : a + 2 ^ l ≤ 4096) : accessible a = true := by
  have h4 := mod_four_of_aligned h3 ha
  have h8 := eight_le_pow h3
  simp only [accessible, SIZEOF_HEAD, buddy_page_len_eq, Bool.and_eq_true, beq_iff_eq,
    decide_eq_true_eq]
  omega

theorem load_of_accessible (m : Page) {a : Nat} (h : accessible a = true) :
    load m a = some (m a) := by
  simp [load, h]

theorem store_of_accessible (m : Page) {a : Nat} (v : head_t) (h : accessible a = true) :
    store m a v = some (fun x => if x = a then v else m x) := by
  simp [store, h]

theorem shl1_nat (l : Nat) (h : l < 31) : shl1 (l : Int) = some (2 ^ l) := by
  unfold shl1
  rw [if_pos ⟨by omega, by omega⟩, Int.toNat_ofNat, Nat.one_shiftLeft]

theorem page_bit_nat (l : Nat) (h : l < 12) : page_bit (l : Int) = some (2 ^ l) := by
  unfold page_bit PAGE_LEVEL
  rw [if_pos ⟨by omega, by omega⟩, Int.toNat_ofNat, Nat.one_shiftLeft]

theorem tiles_le {m : Page} : ∀ (bs : List Blk) (a e : Nat), Tiles m a bs e → a ≤ e := by
  intro bs
  induction bs with
  | nil => intro a e h; exact Nat.le_of_eq h
  | cons b bs ih =>
    intro a e h
    have := ih _ _ h.2.2.2.2.2
    have hpos := Nat.two_pow_pos b.level
    omega

theorem tiles_mem {m : Page} : ∀ (bs : List Blk) (a e : Nat), Tiles m a bs e → ∀ b ∈ bs,
    a ≤ b.addr ∧ b.addr + 2 ^ b.level ≤ e ∧ m b.addr = b.hdr ∧ 3 ≤ b.level ∧ b.level ≤ 12 ∧
      b.addr % 2 ^ b.level = 0 := by
  intro bs
  induction bs with
  | nil => intro a e _ b hb; cases hb
  | cons c bs ih =>
    intro a e h b hb
    obtain ⟨h1, h2, h3, h4, h5, h6⟩ := h
    rcases List.mem_cons.1 hb with hbc | hb
    · subst hbc
      have := tiles_le _ _ _ h6
      subst h1
      exact ⟨Nat.le_refl _, this, h2, h3, h4, h5⟩
    · have := ih _ _ h6 b hb
      have hpos := Nat.two_pow_pos c.level
      exact ⟨by omega, this.2⟩

theorem tiles_frame {m m' : Page} : ∀ (bs : List Blk) (a e : Nat),
    (∀ x, a ≤ x → x < e → m' x = m x) → Tiles m a bs e → Tiles m' a bs e := by
  intro bs
  induction bs with
  | nil => intro a e _ h; exact h
  | cons b bs ih =>
    intro a e hm h
    obtain ⟨h1, h2, h3, h4, h5, h6⟩ := h
    have hle := tiles_le _ _ _ h6
    have hpos := Nat.two_pow_pos b.level
    refine ⟨h1, ?_, h3, h4, h5, ih _ _ (fun x hx1 hx2 => hm x (by omega) hx2) h6⟩
    rw [hm a (Nat.le_refl a) (by omega)]
    exact h2

theorem tiles_append {m : Page} : ∀ (xs ys : List Blk) (a e : Nat),
    Tiles m a (xs ++ ys) e ↔ ∃ c, Tiles m a xs c ∧ Tiles m c ys e := by
  intro xs
  induction xs with
  | nil =>
    intro ys a e
    constructor
    · intro h; exact ⟨a, rfl, h⟩
    · rintro ⟨c, h1, h2⟩
      have : a = c := h1
      subst this
      exact h2
  | cons b xs ih =>
    intro ys a e
    constructor
    · rintro ⟨h1, h2, h3, h4, h5, h6⟩
      obtain ⟨c, hc1, hc2⟩ := (ih ys _ e).1 h6
      exact ⟨c, ⟨h1, h2, h3, h4, h5, hc1⟩, hc2⟩
    · rintro ⟨c, ⟨h1, h2, h3, h4, h5, h6⟩, hc2⟩
      exact ⟨h1, h2, h3, h4, h5, (ih ys _ e).2 ⟨c, h6, hc2⟩⟩

theorem tiles_split_mem {m : Page} {bs : List Blk} {a e : Nat} (h : Tiles m a bs e) {b : Blk}
    (hb : b ∈ bs) : ∃ pre post, bs = pre ++ b :: post ∧ Tiles m a pre b.addr ∧
      Tiles m (b.addr + 2 ^ b.level) post e := by
  obtain ⟨pre, post, hbs⟩ := List.append_of_mem hb
  subst hbs
  obtain ⟨c, hc1, hc2⟩ := (tiles_append pre (b :: post) a e).1 h
  obtain ⟨h1, _, _, _, _, h6⟩ := hc2
  subst h1
  exact ⟨pre, post, rfl, hc1, h6⟩

theorem scan_tiles (m : Page) (l : Int) : ∀ (bs : List Blk) (a fuel : Nat) (acc : Option Blk),
    Tiles m a bs PAGE_LEN → bs.length < fuel →
    (∀ s, acc = some s → accessible s.addr = true ∧ m s.addr = s.hdr) →
    scan m l fuel a (acc.map Blk.addr) = some ((pick l acc bs).map Blk.addr) := by
  intro bs
  induction bs with
  | nil =>
    intro a fuel acc h hf _
    have ha : a = PAGE_LEN := h
    obtain ⟨f, rfl⟩ : ∃ f, fuel = f + 1 := ⟨fuel - 1, by simp at hf; omega⟩
    subst ha
    simp [scan, within_block, pick]
  | cons b bs ih =>
    intro a fuel acc h hf hacc
    obtain ⟨h1, h2, h3, h4, h5, h6⟩ := h
    have hle := tiles_le _ _ _ h6
    rw [buddy_page_len_eq] at hle
    have hacc_a := accessible_block h3 h5 hle
    have hpos := Nat.two_pow_pos b.level
    obtain ⟨f, rfl⟩ : ∃ f, fuel = f + 1 := ⟨fuel - 1, by simp at hf; omega⟩
    have hf' : bs.length < f := by simp at hf; omega
    have hnext : get_next m a = some (a + 2 ^ b.level) := by
      simp [get_next, load_of_accessible m hacc_a, h2, Blk.hdr, shl1_nat b.level (by omega)]
    have hw : within_block 0 a = true := by
      simp only [within_block, buddy_page_len_eq, decide_eq_true_eq]
      omega
    rw [scan, if_pos hw, load_of_accessible m hacc_a, h2, hnext]
    simp only [Option.bind_eq_bind, Option.some_bind, Blk.hdr, pick]
    cases hc : (!b.taken && decide ((b.level : Int) ≥ l)) with
    | false =>
      simp only [Bool.false_eq_true, if_false, Option.pure_def, Option.some_bind, Bool.false_and]
      exact ih _ f acc h6 hf' hacc
    | true =>
      cases acc with
      | none =>
        simp only [if_true, Option.pure_def, Option.some_bind, Option.map_none', Bool.and_self]
        have := ih (a + 2 ^ b.level) f (some b) h6 hf'
          (fun s hs => by cases hs; rw [h1]; exact ⟨hacc_a, h2⟩)
        rw [Option.map_some', h1] at this
        exact this
      | some s =>
        obtain ⟨hs1, hs2⟩ := hacc s rfl
        simp only [if_true, Option.map_some', load_of_accessible m hs1, hs2, Blk.hdr,
          Option.some_bind, Option.pure_def, Bool.true_and, Nat.cast_lt]
        by_cases hlt : b.level < s.level
        · simp only [hlt, decide_True, if_true]
          have := ih (a + 2 ^ b.level) f (some b) h6 hf'
            (fun s hs => by cases hs; rw [h1]; exact ⟨hacc_a, h2⟩)
          rw [Option.map_some', h1] at this
          exact this
        · simp only [hlt, decide_False, Bool.false_eq_true, if_false]
          have := ih (a + 2 ^ b.level) f (some s) h6 hf'
            (fun t ht => by cases ht; exact ⟨hs1, hs2⟩)
          rw [Option.map_some'] at this
          exact this

theorem pick_spec (l : Int) : ∀ (bs : List Blk) (acc : Option Blk) (r : Blk),
    pick l acc bs = some r → acc = some r ∨ (r ∈ bs ∧ r.taken = false ∧ l ≤ (r.level : Int)) := by
  intro bs
  induction bs with
  | nil => intro acc r h; exact Or.inl h
  | cons b bs ih =>
    intro acc r h
    simp only [pick] at h
    rcases ih _ r h with h1 | ⟨h1, h2, h3⟩
    · split at h1
      · rename_i hc
        cases h1
        simp only [Bool.and_eq_true, Bool.not_eq_true', decide_eq_true_eq] at hc
        exact Or.inr ⟨List.mem_cons_self _ _, hc.1.1, hc.1.2⟩
      · exact Or.inl h1
    · exact Or.inr ⟨List.mem_cons_of_mem _ h1, h2, h3⟩

theorem bit_length_spec : ∀ (fuel x : Nat), x < 2 ^ fuel →
    x < 2 ^ bit_length fuel x ∧ bit_length fuel x ≤ fuel ∧
      (x ≠ 0 → 2 ^ (bit_length fuel x - 1) ≤ x) := by
  intro fuel
  induction fuel with
  | zero =>
    intro x hx
    simp only [bit_length]
    refine ⟨hx, Nat.le_refl _, fun _ => ?_⟩
    simp at hx
    omega
  | succ fuel ih =>
    intro x hx
    by_cases h0 : x = 0
    · subst h0
      simp [bit_length]
    · rw [bit_length, if_neg h0]
      have hx2 : x / 2 < 2 ^ fuel := by
        rw [Nat.pow_succ] at hx
        omega
      obtain ⟨i1, i2, i3⟩ := ih (x / 2) hx2
      refine ⟨?_, by omega, fun _ => ?_⟩
      · rw [Nat.pow_succ]
        omega
      · rw [Nat.add_sub_cancel]
        by_cases h1 : x / 2 = 0
        · have hb : bit_length fuel (x / 2) = 0 := by
            rw [h1]
            cases fuel <;> simp [bit_length]
          rw [hb]
          simp
          omega
        · have := i3 h1
          have hb : bit_length fuel (x / 2) = (bit_length fuel (x / 2) - 1) + 1 := by
            have : bit_length fuel (x / 2) ≠ 0 := by
              intro hc
              rw [hc] at i1
              simp at i1
              exact h1 i1
            omega
          rw [hb, Nat.pow_succ]
          omega

/-- `get_level` in closed form, wherever the C expression is defined: the number of binary
digits of `total_len - 1` (modulo `2 ^ 64`), but at least `MIN_LEVEL`. -/
theorem get_level_eq (len : Nat) (h1 : (len + 4) % 2 ^ 64 ≠ 1) :
    get_level len =
      some ((max 3 (bit_length 64 (((len + 4) % 2 ^ 64 + 2 ^ 64 - 1) % 2 ^ 64)) : Nat) : Int) := by
  have hb := bit_length_spec 64 (((len + 4) % 2 ^ 64 + 2 ^ 64 - 1) % 2 ^ 64)
    (Nat.mod_lt _ (by norm_num))
  generalize hbl : bit_length 64 (((len + 4) % 2 ^ 64 + 2 ^ 64 - 1) % 2 ^ 64) = bl at hb
  have harg : ∀ z : Int, (z = ((len + 4) % 2 ^ 64 : Nat) ∨ z = ((len + 4) % 2 ^ 64 : Nat) - 2 ^ 64) →
      ((z - 1) % 2 ^ 64).toNat = ((len + 4) % 2 ^ 64 + 2 ^ 64 - 1) % 2 ^ 64 := by
    intro z hz
    omega
  unfold get_level
  simp only [SIZEOF_HEAD]
  have hlong : ((if (len + 4) % 2 ^ 64 < 2 ^ 63 then (((len + 4) % 2 ^ 64 : Nat) : Int)
      else (((len + 4) % 2 ^ 64 : Nat) : Int) - 2 ^ 64) =
      (((len + 4) % 2 ^ 64 : Nat) : Int)) ∨
      ((if (len + 4) % 2 ^ 64 < 2 ^ 63 then (((len + 4) % 2 ^ 64 : Nat) : Int)
      else (((len + 4) % 2 ^ 64 : Nat) : Int) - 2 ^ 64) =
      (((len + 4) % 2 ^ 64 : Nat) : Int) - 2 ^ 64) := by
    split
    · exact Or.inl rfl
    · exact Or.inr rfl
  rw [harg _ hlong]
  have hne : ¬ (((len + 4) % 2 ^ 64 + 2 ^ 64 - 1) % 2 ^ 64 = 0) := by omega
  rw [if_neg hne]
  simp only [clzl, hbl, MIN_LEVEL]
  have hlevel : (8 * 8 - ((64 - bl : Nat) : Int)) = (bl : Int) := by omega
  rw [hlevel]
  have hmax : (if (bl : Int) < 3 then (3 : Int) else (bl : Int)) = ((max 3 bl : Nat) : Int) := by
    split <;> omega
  rw [hmax, toShort_of_range _ (by omega) (by omega)]

/-- For a length whose sum with the header size does not wrap, `get_level` is a level of at
least `MIN_LEVEL` whose block holds header and payload. -/
theorem get_level_fits (len : Nat) (h1 : len + 4 < 2 ^ 64) :
    ∃ L : Nat, get_level len = some (L : Int) ∧ 3 ≤ L ∧ len + 4 ≤ 2 ^ L := by
  have hm : (len + 4) % 2 ^ 64 = len + 4 := Nat.mod_eq_of_lt h1
  have e := get_level_eq len (by omega)
  have hb := bit_length_spec 64 (((len + 4) % 2 ^ 64 + 2 ^ 64 - 1) % 2 ^ 64)
    (Nat.mod_lt _ (by norm_num))
  refine ⟨_, e, by omega, ?_⟩
  have harg : ((len + 4) % 2 ^ 64 + 2 ^ 64 - 1) % 2 ^ 64 = len + 3 := by omega
  rw [harg] at hb ⊢
  have hmono : 2 ^ bit_length 64 (len + 3) ≤ 2 ^ max 3 (bit_length 64 (len + 3)) :=
    Nat.pow_le_pow_right (by norm_num) (by omega)
  omega

theorem aligned_of_le {s j k : Nat} (hjk : j ≤ k) (h : s % 2 ^ k = 0) : s % 2 ^ j = 0 := by
  have h1 : (2 : Nat) ^ j ∣ 2 ^ k := pow_dvd_pow 2 hjk
  exact Nat.mod_eq_zero_of_dvd (h1.trans (Nat.dvd_of_mod_eq_zero h))

theorem or_pow_of_aligned {s j : Nat} (h : s % 2 ^ (j + 1) = 0) : s ||| 2 ^ j = s + 2 ^ j := by
  obtain ⟨q, hq⟩ := Nat.dvd_of_mod_eq_zero h
  have hlt : 2 ^ j < 2 ^ (j + 1) := Nat.pow_lt_pow_right (by norm_num) (Nat.lt_succ_self j)
  rw [hq]
  exact (Nat.mul_add_lt_is_or hlt q).symm

theorem add_pow_aligned {s j : Nat} (h : s % 2 ^ j = 0) : (s + 2 ^ j) % 2 ^ j = 0 := by
  simp [Nat.add_mod, h]

/-- One `split` of a block of level `j + 1` at an aligned address `s`. -/
theorem split_spec (m : Page) (s j : Nat) (t : Bool) (hs : m s = { taken := t, level := ((j + 1 : Nat) : Int) })
    (h3 : 3 ≤ j) (h12 : j + 1 ≤ 12) (hal : s % 2 ^ (j + 1) = 0) (hb : s + 2 ^ (j + 1) ≤ 4096) :
    split m s = some (s + 2 ^ j,
      fun x => if x = s + 2 ^ j then { taken := false, level := (j : Int) }
               else if x = s then { taken := false, level := (j : Int) } else m x) := by
  have hpos := Nat.two_pow_pos j
  have hpow : 2 ^ (j + 1) = 2 ^ j + 2 ^ j := by rw [Nat.pow_succ]; omega
  have ha1 : accessible s = true := accessible_block (by omega) hal hb
  have ha2 : accessible (s + 2 ^ j) = true :=
    accessible_block h3 (add_pow_aligned (aligned_of_le (Nat.le_succ j) hal)) (by omega)
  have hlev : toShort (((j + 1 : Nat) : Int) - 1) = (j : Int) := by
    rw [toShort_of_range _ (by omega) (by omega)]
    omega
  have hne : s ≠ s + 2 ^ j := by omega
  unfold split
  simp only [load_of_accessible m ha1, hs, Option.bind_eq_bind, Option.some_bind, hlev,
    store_of_accessible m _ ha1, page_bit_nat j (by omega), or_pow_of_aligned hal, load, ha1,
    if_true, store, ha2, Option.pure_def]

theorem split_loop_spec (s l : Nat) (h3 : 3 ≤ l) : ∀ (d : Nat) (m : Page) (fuel : Nat),
    m s = { taken := false, level := ((l + d : Nat) : Int) } → l + d ≤ 12 →
    s % 2 ^ (l + d) = 0 → s + 2 ^ (l + d) ≤ 4096 → d < fuel →
    ∃ m', split_loop (l : Int) s fuel m = some m' ∧
      m' s = { taken := false, level := (l : Int) } ∧
      (∀ j, l ≤ j → j < l + d → m' (s + 2 ^ j) = { taken := false, level := (j : Int) }) ∧
      (∀ x, (x < s ∨ s + 2 ^ (l + d) ≤ x) → m' x = m x) := by
  intro d
  induction d with
  | zero =>
    intro m fuel hs h12 hal hb hf
    obtain ⟨f, rfl⟩ : ∃ f, fuel = f + 1 := ⟨fuel - 1, by omega⟩
    have ha1 : accessible s = true := accessible_block h3 hal hb
    refine ⟨m, ?_, hs, fun j h1 h2 => by omega, fun _ _ => rfl⟩
    rw [split_loop, load_of_accessible m ha1, hs]
    simp
  | succ d ih =>
    intro m fuel hs h12 hal hb hf
    obtain ⟨f, rfl⟩ : ∃ f, fuel = f + 1 := ⟨fuel - 1, by omega⟩
    have hpos := Nat.two_pow_pos (l + d)
    have hpow : 2 ^ (l + (d + 1)) = 2 ^ (l + d) + 2 ^ (l + d) := by
      rw [← Nat.add_assoc, Nat.pow_succ]; omega
    have ha1 : accessible s = true := accessible_block (by omega) hal hb
    have hsp := split_spec m s (l + d) false hs (by omega) h12 hal hb
    obtain ⟨m', e1, e2, e3, e4⟩ := ih
      (fun x => if x = s + 2 ^ (l + d) then { taken := false, level := ((l + d : Nat) : Int) }
               else if x = s then { taken := false, level := ((l + d : Nat) : Int) } else m x) f
      (by beta_reduce
          rw [if_neg (by omega), if_pos rfl])
      (by omega) (aligned_of_le (by omega) hal) (by omega) (by omega)
    refine ⟨m', ?_, e2, ?_, ?_⟩
    · rw [split_loop, load_of_accessible m ha1, hs]
      simp only [Option.bind_eq_bind, Option.some_bind]
      rw [if_pos (by omega), hsp]
      exact e1
    · intro j hj1 hj2
      by_cases hj : j < l + d
      · exact e3 j hj1 hj
      · have hjeq : j = l + d := by omega
        subst hjeq
        rw [e4 _ (Or.inr (Nat.le_refl _)), if_pos rfl]
    · intro x hx
      rw [e4 x (by omega), if_neg (by omega), if_neg (by omega)]

theorem split_tail_tiles (m : Page) (s : Nat) : ∀ (d l : Nat), 3 ≤ l → l + d ≤ 12 →
    s % 2 ^ (l + d) = 0 →
    (∀ j, l ≤ j → j < l + d → m (s + 2 ^ j) = { taken := false, level := (j : Int) }) →
    Tiles m (s + 2 ^ l) (split_tail s l d) (s + 2 ^ (l + d)) := by
  intro d
  induction d with
  | zero => intro l _ _ _ _; rfl
  | succ d ih =>
    intro l h3 h12 hal hm
    have hpow : 2 ^ (l + 1) = 2 ^ l + 2 ^ l := by rw [Nat.pow_succ]; omega
    have := ih (l + 1) (by omega) (by omega) (by rw [Nat.add_assoc, Nat.add_comm 1 d]; exact hal)
      (fun j h1 h2 => hm j (by omega) (by omega))
    rw [Nat.add_assoc, Nat.add_comm 1 d, hpow, ← Nat.add_assoc] at this
    simp only [split_tail, List.range'_succ, List.map_cons]
    exact ⟨rfl, hm l (Nat.le_refl l) (by omega), h3, (by show l ≤ 12; omega),
      add_pow_aligned (aligned_of_le (by omega) hal), this⟩

theorem tiles_length {m : Page} : ∀ (bs : List Blk) (a e : Nat), Tiles m a bs e →
    a + 8 * bs.length ≤ e := by
  intro bs
  induction bs with
  | nil => intro a e h; simp; exact Nat.le_of_eq h
  | cons b bs ih =>
    intro a e h
    have := ih _ _ h.2.2.2.2.2
    have h8 := eight_le_pow h.2.2.1
    rw [List.length_cons]
    omega

/-- `buddy_alloc` on a tiled page, for a request of level `L`: either it returns `NULL` and
leaves the page as it is, or it returns the payload address of a block at `s` that was free
with a level `k ≥ L`, and the page is tiled by the blocks before it, the block at `s` taken
with level `L`, the free remainders of the splits, and the blocks after it. -/
theorem buddy_alloc_tiles (mapped : Bool) (m : Page) (bs : List Blk) (len L : Nat)
    (ht : Tiles m 0 bs PAGE_LEN) (hlen : len ≠ 0) (hl : get_level len = some (L : Int))
    (h3 : 3 ≤ L) :
    buddy_alloc mapped (some m) len = some (none, some m) ∨
    ∃ pre post s k m', L ≤ k ∧ bs = pre ++ { addr := s, level := k, taken := false } :: post ∧
      buddy_alloc mapped (some m) len = some (some (s + 4), some m') ∧
      Tiles m' 0 (pre ++ { addr := s, level := L, taken := true } ::
        (split_tail s L (k - L) ++ post)) PAGE_LEN ∧
      Tiles m 0 pre s ∧ Tiles m (s + 2 ^ k) post PAGE_LEN := by
  have hlenb := tiles_length _ _ _ ht
  rw [buddy_page_len_eq] at hlenb
  have hscan := scan_tiles m (L : Int) bs 0 (PAGE_LEN + 1) none ht
    (by rw [buddy_page_len_eq]; omega) (fun s hs => by cases hs)
  rw [Option.map_none'] at hscan
  unfold buddy_alloc
  rw [if_neg hlen, hl]
  simp only [Option.bind_eq_bind, Option.some_bind, PAGE_LEVEL]
  by_cases hbig : (L : Int) > 12
  · rw [if_pos hbig]
    exact Or.inl rfl
  · rw [if_neg hbig]
    simp only [hscan, Option.some_bind]
    cases hp : pick (L : Int) none bs with
    | none => exact Or.inl rfl
    | some b =>
      rcases pick_spec _ _ _ _ hp with hc | ⟨hmem, hfree, hLk⟩
      · cases hc
      · obtain ⟨pre, post, hbs, hpre, hpost⟩ := tiles_split_mem ht hmem
        obtain ⟨_, hbe, hhdr, _, hk12, hal⟩ := tiles_mem _ _ _ ht b hmem
        obtain ⟨s, k, t⟩ := b
        simp only at hfree hLk hpre hpost hbe hhdr hk12 hal
        subst hfree
        have hLk' : L ≤ k := by omega
        have hkd : L + (k - L) = k := by omega
        rw [buddy_page_len_eq] at hbe
        obtain ⟨m1, e1, e2, e3, e4⟩ := split_loop_spec s L h3 (k - L) m (PAGE_LEN + 1)
          (by rw [hkd]; exact hhdr) (by omega) (by rw [hkd]; exact hal) (by rw [hkd]; exact hbe)
          (by rw [buddy_page_len_eq]; omega)
        rw [hkd] at e3 e4
        have hposL := Nat.two_pow_pos L
        have hpowLk : 2 ^ L ≤ 2 ^ k := Nat.pow_le_pow_right (by norm_num) hLk'
        have halL : s % 2 ^ L = 0 := aligned_of_le hLk' hal
        have ha1 : accessible s = true := accessible_block h3 halL (by omega)
        refine Or.inr ⟨pre, post, s, k,
          (fun x => if x = s then { taken := true, level := (L : Int) } else m1 x),
          hLk', hbs, ?_, ?_, hpre, hpost⟩
        · simp only [Option.map_some', e1, Option.some_bind, load_of_accessible m1 ha1, e2,
            store_of_accessible m1 _ ha1, Option.pure_def, SIZEOF_HEAD]
        · refine (tiles_append _ _ _ _).2 ⟨s, ?_, rfl, ?_, h3, (by show L ≤ 12; omega), halL, ?_⟩
          · refine tiles_frame _ _ _ (fun x _ hx => ?_) hpre
            beta_reduce
            rw [if_neg (by omega), e4 x (Or.inl hx)]
          · beta_reduce
            rw [if_pos rfl]
            rfl
          · refine (tiles_append _ _ _ _).2 ⟨s + 2 ^ k, ?_, ?_⟩
            · have := split_tail_tiles
                (fun x => if x = s then { taken := true, level := (L : Int) } else m1 x)
                s (k - L) L h3 (by omega) (by rw [hkd]; exact hal)
                (fun j hj1 hj2 => by
                  have := Nat.two_pow_pos j
                  beta_reduce
                  rw [if_neg (by omega)]
                  exact e3 j hj1 (by omega))
              rw [hkd] at this
              exact this
            · refine tiles_frame _ _ _ (fun x hx _ => ?_) hpost
              beta_reduce
              rw [if_neg (by omega), e4 x (Or.inr hx)]

theorem tiles_fresh : ∃ m, fresh = some m ∧
    Tiles m 0 [{ addr := 0, level := 12, taken := false }] PAGE_LEN :=
  ⟨_, rfl, rfl, rfl, by decide, by decide, by decide, rfl⟩

/-- One more `buddy_alloc` keeps the ownership invariant; the new pointer, if any, joins the
pointers handed out. -/
theorem own_alloc (mapped : Bool) (m : Page) (bs : List Blk) (hits : List (Nat × Nat))
    (len : Nat) (ho : Own m bs hits) (h1 : len + 4 < 2 ^ 64) :
    ∃ r m' bs', buddy_alloc mapped (some m) len = some (r, some m') ∧
      Own m' bs' (match r with
        | some p => (p, len) :: hits
        | none => hits) := by
  by_cases hlen : len = 0
  · refine ⟨none, m, bs, ?_, ho⟩
    simp [buddy_alloc, hlen]
  · obtain ⟨L, hl, h3, hfit⟩ := get_level_fits len h1
    rcases buddy_alloc_tiles mapped m bs len L ho.tiles hlen hl h3 with hnull |
      ⟨pre, post, s, k, m', hLk, hbs, halloc, htiles, hpre, hpost⟩
    · exact ⟨none, m, bs, hnull, ho⟩
    · have hpow : 2 ^ L ≤ 2 ^ k := Nat.pow_le_pow_right (by norm_num) hLk
      have hin : ∀ x ∈ hits, ∃ lvl, x.2 + 4 ≤ 2 ^ lvl ∧ 4 ≤ x.1 ∧
          (({ addr := x.1 - 4, level := lvl, taken := true } : Blk) ∈ pre ∨
           ({ addr := x.1 - 4, level := lvl, taken := true } : Blk) ∈ post) := by
        intro x hx
        obtain ⟨lvl, hmem, h4, hsz⟩ := ho.owned x hx
        refine ⟨lvl, hsz, h4, ?_⟩
        rw [hbs] at hmem
        rcases List.mem_append.1 hmem with hm | hm
        · exact Or.inl hm
        · rcases List.mem_cons.1 hm with hm | hm
          · cases hm
          · exact Or.inr hm
      refine ⟨some (s + 4), m', _, halloc, htiles, ?_, ?_⟩
      · intro x hx
        rcases List.mem_cons.1 hx with hx | hx
        · subst hx
          refine ⟨L, ?_, by simp, hfit⟩
          simp
        · obtain ⟨lvl, hsz, h4, hm⟩ := hin x hx
          refine ⟨lvl, ?_, h4, hsz⟩
          rcases hm with hm | hm
          · exact List.mem_append_left _ hm
          · exact List.mem_append_right _
              (List.mem_cons_of_mem _ (List.mem_append_right _ hm))
      · refine List.pairwise_cons.2 ⟨?_, ho.disjoint⟩
        intro x hx
        obtain ⟨lvl, hsz, h4, hm⟩ := hin x hx
        rcases hm with hm | hm
        · have := (tiles_mem _ _ _ hpre _ hm).2.1
          simp only at this
          right
          show x.1 + x.2 ≤ s + 4
          omega
        · have := (tiles_mem _ _ _ hpost _ hm).1
          simp only at this
          left
          show s + 4 + len ≤ x.1
          omega

theorem alloc_seq_own : ∀ (lens : List Nat) (m : Page) (bs : List Blk)
    (hits : List (Nat × Nat)), Own m bs hits →
    (∀ len ∈ lens, len + 4 < 2 ^ 64) →
    ∃ hits' m' bs', alloc_seq lens (some m) hits = some (hits', some m') ∧ Own m' bs' hits' := by
  intro lens
  induction lens with
  | nil => intro m bs hits ho _; exact ⟨hits, m, bs, rfl, ho⟩
  | cons len lens ih =>
    intro m bs hits ho hl
    have h1 := hl len (List.mem_cons_self _ _)
    obtain ⟨r, m', bs', e, ho'⟩ := own_alloc true m bs hits len ho h1
    obtain ⟨hits', m'', bs'', e', ho''⟩ := ih m' bs' _ ho'
      (fun l hlm => hl l (List.mem_cons_of_mem _ hlm))
    refine ⟨hits', m'', bs'', ?_, ho''⟩
    rw [alloc_seq, e]
    exact e'

/-- Buddy non-overlap without frees, for lengths whose sum with the header size does not wrap
around (and does not reach the sign bit of `long`): from the fresh page, every sequence of
`buddy_alloc` calls runs to the end, and the calls that returned non-null have pairwise
disjoint payload ranges `[p, p + len)`, each inside the page behind a taken header whose
level gives a usable size `2 ^ level - sizeof(head_t)` of at least `len`. -/
theorem alloc_only_disjoint (lens : List Nat)
    (hl : ∀ len ∈ lens, len + 4 < 2 ^ 64 ∧ len + 4 ≠ 2 ^ 63) :
    ∃ hits m, alloc_seq lens fresh [] = some (hits, some m) ∧
      hits.Pairwise (fun x y => x.1 + x.2 ≤ y.1 ∨ y.1 + y.2 ≤ x.1) ∧
      ∀ x ∈ hits, SIZEOF_HEAD ≤ x.1 ∧ x.1 + x.2 ≤ PAGE_LEN ∧
        (m (x.1 - SIZEOF_HEAD)).taken = true ∧
        x.2 ≤ 2 ^ (m (x.1 - SIZEOF_HEAD)).level.toNat - SIZEOF_HEAD := by
  obtain ⟨m0, hfresh, ht0⟩ := tiles_fresh
  have ho0 : Own m0 _ [] := ⟨ht0, fun x hx => (by cases hx), List.Pairwise.nil⟩
  obtain ⟨hits, m, bs, e, ho⟩ := alloc_seq_own lens m0 _ [] ho0 (fun len h => (hl len h).1)
  rw [hfresh]
  refine ⟨hits, m, e, ho.disjoint, ?_⟩
  intro x hx
  obtain ⟨lvl, hmem, h4, hsz⟩ := ho.owned x hx
  obtain ⟨_, hbe, hhdr, _, _, _⟩ := tiles_mem _ _ _ ho.tiles _ hmem
  simp only [Blk.hdr] at hbe hhdr
  simp only [SIZEOF_HEAD, hhdr, Int.toNat_ofNat]
  refine ⟨h4, by omega, trivial, by omega⟩

theorem alloc_only_disjoint_witness :
    ∃ hits m, alloc_seq [1, 4092, 100] fresh [] = some (hits, some m) ∧
      hits.Pairwise (fun x y => x.1 + x.2 ≤ y.1 ∨ y.1 + y.2 ≤ x.1) ∧
      ∀ x ∈ hits, SIZEOF_HEAD ≤ x.1 ∧ x.1 + x.2 ≤ PAGE_LEN ∧
        (m (x.1 - SIZEOF_HEAD)).taken = true ∧
        x.2 ≤ 2 ^ (m (x.1 - SIZEOF_HEAD)).level.toNat - SIZEOF_HEAD :=
  alloc_only_disjoint [1, 4092, 100] (by decide)

/-- C11: for every length such that `length + sizeof(head_t)` does not wrap around the 64 bit
unsigned range, `get_level(length)` is the smallest integer `L ≥ MIN_LEVEL = 3` with
`2 ^ L ≥ length + sizeof(head_t)`, where `sizeof(head_t) = 4`. -/
theorem get_level_correct (len : Nat) (h : len + SIZEOF_HEAD < 2 ^ 64) :
    ∃ L : Nat, get_level len = some (L : Int) ∧ MIN_LEVEL ≤ (L : Int) ∧
      len + SIZEOF_HEAD ≤ 2 ^ L ∧
      (∀ L' : Nat, MIN_LEVEL ≤ (L' : Int) → len + SIZEOF_HEAD ≤ 2 ^ L' → L ≤ L') ∧
      SIZEOF_HEAD = 4 := by
  simp only [SIZEOF_HEAD, MIN_LEVEL] at h ⊢
  have e := get_level_eq len (by omega)
  have hb := bit_length_spec 64 (((len + 4) % 2 ^ 64 + 2 ^ 64 - 1) % 2 ^ 64)
    (Nat.mod_lt _ (by norm_num))
  have harg : ((len + 4) % 2 ^ 64 + 2 ^ 64 - 1) % 2 ^ 64 = len + 3 := by omega
  rw [harg] at hb e
  obtain ⟨hb1, _, hb3⟩ := hb
  have hb3' := hb3 (by omega)
  refine ⟨_, e, by omega, ?_, ?_, trivial⟩
  · have hmono : 2 ^ bit_length 64 (len + 3) ≤ 2 ^ max 3 (bit_length 64 (len + 3)) :=
      Nat.pow_le_pow_right (by norm_num) (by omega)
    omega
  · intro L' h3 hfit
    by_contra hlt
    have hL' : L' ≤ bit_length 64 (len + 3) - 1 := by omega
    have hmono : 2 ^ L' ≤ 2 ^ (bit_length 64 (len + 3) - 1) :=
      Nat.pow_le_pow_right (by norm_num) hL'
    omega

theorem get_level_correct_witness :
    ∃ L : Nat, get_level 253 = some (L : Int) ∧ MIN_LEVEL ≤ (L : Int) ∧
      253 + SIZEOF_HEAD ≤ 2 ^ L ∧
      (∀ L' : Nat, MIN_LEVEL ≤ (L' : Int) → 253 + SIZEOF_HEAD ≤ 2 ^ L' → L ≤ L') ∧
      SIZEOF_HEAD = 4 :=
  get_level_correct 253 (by decide)

/-- C13 (evaluation at the failing input): `2^64 - 2` exceeds `PAGE_LEN - sizeof(head_t)`,
yet `get_level(2^64 - 2)` is 3, because `length + sizeof(head_t)` is 2 modulo `2^64`, and on
the fresh page `buddy_alloc(2^64 - 2)` returns the non-null pointer 4 to a block of level 3;
`buddy_alloc(2^64 - 1)` does the same. -/
theorem buddy_alloc_oversize_trace :
    PAGE_LEN - SIZEOF_HEAD < 2 ^ 64 - 2 ∧ 2 ^ 64 - 2 < 2 ^ 64 ∧
    (do let l ← get_level (2 ^ 64 - 2)
        let a ← buddy_alloc true fresh (2 ^ 64 - 2)
        let b ← buddy_alloc true fresh (2 ^ 64 - 1)
        let m ← a.2
        pure (l, [a.1, b.1], m 0))
      = some (3, [some 4, some 4], { taken := true, level := 3 }) := by
  decide

/-- C16 (evaluation at the failing input): from the fresh page, after `buddy_alloc(2044)`,
`buddy_alloc(1)`, `buddy_alloc(1)` (pointers 4, 2052, 2060) and `buddy_free(2052)`, the block
at 0 has level 11 and the header at its buddy address 2048 is free with level 3, the first
piece of the split sibling whose piece at 2056 is taken; `buddy_free(4)` nevertheless merges:
afterwards the header at 0 is free with level 12. -/
theorem buddy_merge_trace :
    (do let a ← buddy_alloc true fresh 2044
        let b ← buddy_alloc true a.2 1
        let c ← buddy_alloc true b.2 1
        let g4 ← buddy_free c.2 b.1
        let m4 ← g4
        let buddy ← get_buddy m4 0
        let g5 ← buddy_free g4 a.1
        let m5 ← g5
        pure (buddy, [m4 0, m4 2048, m4 2056, m5 0]))
      = some (2048, [{ taken := true, level := 11 }, { taken := false, level := 3 },
          { taken := true, level := 3 }, { taken := false, level := 12 }]) := by
  decide

/-- C17 (evaluation at the failing input): from the fresh page, after `buddy_alloc(2044)`,
`buddy_alloc(1)`, `buddy_alloc(1)` and `buddy_free` of the second, the first and the third
pointer (each live when freed), the block chain consists of the single block at 0 with level
13: the level exceeds `PAGE_LEVEL` and the block size `2 ^ 13` is not `PAGE_LEN`. -/
theorem buddy_wellformed_trace :
    (do let a ← buddy_alloc true fresh 2044
        let b ← buddy_alloc true a.2 1
        let c ← buddy_alloc true b.2 1
        let g4 ← buddy_free c.2 b.1
        let g5 ← buddy_free g4 a.1
        let g6 ← buddy_free g5 c.1
        let m ← g6
        walk m (PAGE_LEN + 1) 0)
      = some [(0, { taken := false, level := 13 })] ∧
      PAGE_LEVEL < 13 ∧ 2 ^ 13 ≠ PAGE_LEN := by
  decide

theorem pick_of_no_fit (l : Int) : ∀ (bs : List Blk) (acc : Option Blk),
    (∀ c ∈ bs, c.taken = false → (c.level : Int) < l) → pick l acc bs = acc := by
  intro bs
  induction bs with
  | nil => intro acc _; rfl
  | cons b bs ih =>
    intro acc h
    have hb := h b (List.mem_cons_self _ _)
    simp only [pick]
    rw [if_neg, ih acc (fun c hc => h c (List.mem_cons_of_mem _ hc))]
    intro hc
    simp only [Bool.and_eq_true, Bool.not_eq_true', decide_eq_true_eq] at hc
    have := hb hc.1.1
    omega

theorem pick_none (l : Int) : ∀ (bs : List Blk) (acc : Option Blk), pick l acc bs = none →
    acc = none ∧ ∀ c ∈ bs, c.taken = false → (c.level : Int) < l := by
  intro bs
  induction bs with
  | nil => intro acc h; exact ⟨h, fun c hc => by cases hc⟩
  | cons b bs ih =>
    intro acc h
    simp only [pick] at h
    obtain ⟨h1, h2⟩ := ih _ h
    split at h1
    · cases h1
    · rename_i hc
      subst h1
      refine ⟨rfl, fun c hmem hfree => ?_⟩
      rcases List.mem_cons.1 hmem with hcb | hmem
      · subst hcb
        simp only [Bool.and_true, Bool.and_eq_true, Bool.not_eq_true', decide_eq_true_eq,
          not_and, not_le] at hc
        exact hc hfree
      · exact h2 c hmem hfree

/-- What the scanning loop chooses: either it keeps the block it started with, and no later
fitting free block has a smaller level, or it chooses a fitting free block of the list whose
level is strictly smaller than that of the starting block and of every fitting free block
before it, and at most that of every fitting free block after it. -/
theorem pick_char (l : Int) : ∀ (bs : List Blk) (acc : Option Blk) (r : Blk),
    pick l acc bs = some r →
    (acc = some r ∧ ∀ c ∈ bs, c.taken = false → l ≤ (c.level : Int) → r.level ≤ c.level) ∨
    (∃ pre post, bs = pre ++ r :: post ∧ r.taken = false ∧ l ≤ (r.level : Int) ∧
      (∀ a, acc = some a → r.level < a.level) ∧
      (∀ c ∈ pre, c.taken = false → l ≤ (c.level : Int) → r.level < c.level) ∧
      (∀ c ∈ post, c.taken = false → l ≤ (c.level : Int) → r.level ≤ c.level)) := by
  intro bs
  induction bs with
  | nil => intro acc r h; exact Or.inl ⟨h, fun c hc => by cases hc⟩
  | cons b bs ih =>
    intro acc r h
    simp only [pick] at h
    split at h
    · rename_i hcond
      simp only [Bool.and_eq_true, Bool.not_eq_true', decide_eq_true_eq] at hcond
      obtain ⟨⟨hfree, hge⟩, hacc⟩ := hcond
      have hacc' : ∀ a, acc = some a → b.level < a.level := by
        intro a ha
        subst ha
        simpa using hacc
      rcases ih _ r h with ⟨h1, h2⟩ | ⟨pre, post, hbs, hrf, hrl, hra, hpre, hpost⟩
      · cases h1
        exact Or.inr ⟨[], bs, rfl, hfree, hge, hacc', fun c hc => (by cases hc), h2⟩
      · have hrb := hra b rfl
        refine Or.inr ⟨b :: pre, post, by rw [hbs]; rfl, hrf, hrl, ?_, ?_, hpost⟩
        · intro a ha
          have := hacc' a ha
          omega
        · intro c hc hcf hcl
          rcases List.mem_cons.1 hc with hcb | hc
          · subst hcb; exact hrb
          · exact hpre c hc hcf hcl
    · rename_i hcond
      have hb : b.taken = false → l ≤ (b.level : Int) → ∀ a, acc = some a → a.level ≤ b.level := by
        intro hf hl a ha
        subst ha
        simp only [hf, Bool.not_false, hl, ge_iff_le, decide_True, Bool.and_self, Bool.true_and,
          decide_eq_true_eq, not_lt] at hcond
        exact hcond
      have hnone : b.taken = false → l ≤ (b.level : Int) → acc ≠ none := by
        intro hf hl ha
        subst ha
        simp [hf, hl] at hcond
      rcases ih _ r h with ⟨h1, h2⟩ | ⟨pre, post, hbs, hrf, hrl, hra, hpre, hpost⟩
      · refine Or.inl ⟨h1, fun c hc hcf hcl => ?_⟩
        rcases List.mem_cons.1 hc with hcb | hc
        · subst hcb; exact hb hcf hcl r h1
        · exact h2 c hc hcf hcl
      · refine Or.inr ⟨b :: pre, post, by rw [hbs]; rfl, hrf, hrl, hra, ?_, hpost⟩
        intro c hc hcf hcl
        rcases List.mem_cons.1 hc with hcb | hc
        · subst hcb
          cases hacc : acc with
          | none => exact absurd hacc (hnone hcf hcl)
          | some a =>
            have h1 := hb hcf hcl a hacc
            have h2 := hra a hacc
            omega
        · exact hpre c hc hcf hcl

theorem get_level_range (len : Nat) (L : Int) (h : get_level len = some L) :
    ∃ n : Nat, L = (n : Int) ∧ 3 ≤ n ∧ n ≤ 64 := by
  have key : ∀ arg : Nat,
      (if arg = 0 then none
       else some (toShort (if 8 * 8 - (clzl arg : Int) < MIN_LEVEL then MIN_LEVEL
                           else 8 * 8 - (clzl arg : Int)))) = some L →
      ∃ n : Nat, L = (n : Int) ∧ 3 ≤ n ∧ n ≤ 64 := by
    intro arg h
    simp only [MIN_LEVEL, clzl] at h
    split at h
    · cases h
    · have h' := Option.some.inj h
      rw [← h']
      generalize bit_length 64 arg = bl
      split
      · exact ⟨3, by rw [toShort_of_range _ (by omega) (by omega)]; rfl, by omega, by omega⟩
      · refine ⟨64 - (64 - bl), ?_, by omega, by omega⟩
        rw [toShort_of_range _ (by omega) (by omega)]
        omega
  unfold get_level at h
  exact key _ h

theorem buddy_alloc_zero (mapped : Bool) (g : Option Page) :
    buddy_alloc mapped g 0 = some (none, g) := by
  simp [buddy_alloc]

theorem buddy_alloc_too_big (mapped : Bool) (g : Option Page) (len : Nat) (L : Int)
    (hl : get_level len = some L) (hbig : L > PAGE_LEVEL) :
    buddy_alloc mapped g len = some (none, g) := by
  unfold buddy_alloc
  by_cases hlen : len = 0
  · rw [if_pos hlen]
  · rw [if_neg hlen, hl]
    simp only [Option.bind_eq_bind, Option.some_bind]
    rw [if_pos hbig]
    rfl

theorem buddy_alloc_map_failed (len : Nat) (L : Int) (hlen : len ≠ 0)
    (hl : get_level len = some L) (hfit : ¬ L > PAGE_LEVEL) :
    buddy_alloc false none len = some (none, none) := by
  unfold buddy_alloc
  rw [if_neg hlen, hl]
  simp only [Option.bind_eq_bind, Option.some_bind]
  rw [if_neg hfit]
  rfl

/-- Lengths above `PAGE_LEN - sizeof(head_t)` whose sum with the header size does not wrap
past zero are rejected: `buddy_alloc` returns `NULL` and leaves the state as it is. -/
theorem buddy_alloc_oversize_null (mapped : Bool) (g : Option Page) (len : Nat)
    (h1 : PAGE_LEN - SIZEOF_HEAD < len) (h2 : len + SIZEOF_HEAD ≤ 2 ^ 64) :
    buddy_alloc mapped g len = some (none, g) := by
  simp only [buddy_page_len_eq, SIZEOF_HEAD] at h1 h2
  have e := get_level_eq len (by omega)
  have hb := bit_length_spec 64 (((len + 4) % 2 ^ 64 + 2 ^ 64 - 1) % 2 ^ 64)
    (Nat.mod_lt _ (by norm_num))
  have harg : 4096 ≤ ((len + 4) % 2 ^ 64 + 2 ^ 64 - 1) % 2 ^ 64 := by omega
  generalize bit_length 64 (((len + 4) % 2 ^ 64 + 2 ^ 64 - 1) % 2 ^ 64) = bl at e hb
  have hbl : 12 < bl := by
    by_contra hc
    have : 2 ^ bl ≤ 2 ^ 12 := Nat.pow_le_pow_right (by norm_num) (by omega)
    omega
  refine buddy_alloc_too_big mapped g len _ e ?_
  simp only [PAGE_LEVEL]
  omega

/-- The part of `buddy_alloc` after a block has been found never returns `NULL`. -/
theorem alloc_tail_ne_null (m : Page) (level : Int) (s : Nat) (g' : Option Page) :
    (do let m1 ← split_loop level s (PAGE_LEN + 1) m
        let h ← load m1 s
        let m2 ← store m1 s { h with taken := true }
        pure (some (s + SIZEOF_HEAD), some m2)) ≠ some ((none : Option Nat), g') := by
  intro h
  simp only [Option.bind_eq_bind, Option.bind_eq_some, Option.pure_def, Option.some.injEq,
    Prod.mk.injEq] at h
  obtain ⟨_, _, _, _, _, _, hc, _⟩ := h
  cases hc

/-- On a page that has just been mapped the scan finds the top block for every level up to
`PAGE_LEVEL`. -/
theorem scan_fresh (m : Page) (hm : fresh = some m) (L : Int) (hL : ¬ L > PAGE_LEVEL) :
    scan m L (PAGE_LEN + 1) 0 none = some (some 0) := by
  obtain ⟨m0, h0, ht⟩ := tiles_fresh
  rw [hm] at h0
  cases Option.some.inj h0
  have := scan_tiles m L _ 0 (PAGE_LEN + 1) none ht (by rw [buddy_page_len_eq]; simp)
    (fun s hs => by cases hs)
  rw [Option.map_none'] at this
  rw [this]
  have hL' : L ≤ 12 := by
    simp only [PAGE_LEVEL] at hL
    omega
  simp [pick, hL']

/-- C14: whenever `buddy_alloc(length)` returns `NULL`, in any allocator state and for any
length, the state after the call (the top-block reference and the page it points to) is
the state before the call. -/
theorem buddy_alloc_null_atomic (mapped : Bool) (g : Option Page) (len : Nat)
    (g' : Option Page) (h : buddy_alloc mapped g len = some (none, g')) : g' = g := by
  unfold buddy_alloc at h
  by_cases hlen : len = 0
  · rw [if_pos hlen] at h
    cases h
    rfl
  · rw [if_neg hlen] at h
    cases hl : get_level len with
    | none =>
      rw [hl] at h
      cases h
    | some L =>
      rw [hl] at h
      simp only [Option.bind_eq_bind, Option.some_bind] at h
      by_cases hbig : L > PAGE_LEVEL
      · rw [if_pos hbig] at h
        cases h
        rfl
      · rw [if_neg hbig] at h
        have hsome : ∀ m : Page, (do
            let found ← scan m L (PAGE_LEN + 1) 0 none
            match found with
            | none => pure ((none : Option Nat), some m)
            | some smallest => do
              let m1 ← split_loop L smallest (PAGE_LEN + 1) m
              let h ← load m1 smallest
              let m2 ← store m1 smallest { h with taken := true }
              pure (some (smallest + SIZEOF_HEAD), some m2)) = some (none, g') →
            scan m L (PAGE_LEN + 1) 0 none = some none ∧ g' = some m := by
          intro m hm
          cases hs : scan m L (PAGE_LEN + 1) 0 none with
          | none =>
            rw [hs] at hm
            cases hm
          | some found =>
            rw [hs] at hm
            cases found with
            | none =>
              cases hm
              exact ⟨rfl, rfl⟩
            | some smallest =>
              exact absurd hm (alloc_tail_ne_null m L smallest g')
        cases g with
        | some m => exact (hsome m h).2
        | none =>
          cases mapped with
          | false =>
            cases h
            rfl
          | true =>
            obtain ⟨m0, h0, _⟩ := tiles_fresh
            have hnb : new_block true = some m0 := h0
            simp only [hnb] at h
            have := (hsome m0 h).1
            rw [scan_fresh m0 h0 L hbig] at this
            cases this

theorem buddy_alloc_null_atomic_witness :
    buddy_alloc true fresh 4096 = some (none, fresh) ∧ fresh = fresh :=
  ⟨rfl, buddy_alloc_null_atomic true fresh 4096 fresh rfl⟩

theorem buddy_alloc_no_fit (mapped : Bool) (m : Page) (bs : List Blk) (len : Nat) (L : Int)
    (ht : Tiles m 0 bs PAGE_LEN) (hlen : len ≠ 0) (hl : get_level len = some L)
    (hno : ∀ b ∈ bs, b.taken = false → (b.level : Int) < L) :
    buddy_alloc mapped (some m) len = some (none, some m) := by
  by_cases hbig : L > PAGE_LEVEL
  · exact buddy_alloc_too_big mapped (some m) len L hl hbig
  · have hlenb := tiles_length _ _ _ ht
    rw [buddy_page_len_eq] at hlenb
    have hscan := scan_tiles m L bs 0 (PAGE_LEN + 1) none ht
      (by rw [buddy_page_len_eq]; omega) (fun s hs => by cases hs)
    rw [Option.map_none', pick_of_no_fit L bs none hno] at hscan
    unfold buddy_alloc
    rw [if_neg hlen, hl]
    simp only [Option.bind_eq_bind, Option.some_bind]
    rw [if_neg hbig]
    simp only [hscan, Option.some_bind, Option.map_none']
    rfl

/-- `buddy_alloc` when the scan chooses the free block at `s` of level `k ≥ L`: the block is
split down to level `L`, marked taken, and its payload address is returned. -/
theorem buddy_alloc_at (mapped : Bool) (m : Page) (pre post : List Blk) (s k len L : Nat)
    (ht : Tiles m 0 (pre ++ { addr := s, level := k, taken := false } :: post) PAGE_LEN)
    (hlen : len ≠ 0) (hl : get_level len = some (L : Int)) (h3 : 3 ≤ L) (hLk : L ≤ k)
    (hp : pick (L : Int) none (pre ++ { addr := s, level := k, taken := false } :: post) =
      some { addr := s, level := k, taken := false }) :
    ∃ m', buddy_alloc mapped (some m) len = some (some (s + 4), some m') ∧
      m' s = { taken := true, level := (L : Int) } ∧
      Tiles m' 0 (pre ++ { addr := s, level := L, taken := true } ::
        (split_tail s L (k - L) ++ post)) PAGE_LEN := by
  have hlenb := tiles_length _ _ _ ht
  rw [buddy_page_len_eq] at hlenb
  have hscan := scan_tiles m (L : Int) _ 0 (PAGE_LEN + 1) none ht
    (by rw [buddy_page_len_eq]; omega) (fun s hs => by cases hs)
  rw [Option.map_none', hp] at hscan
  obtain ⟨c, hpre, hmid⟩ := (tiles_append _ _ _ _).1 ht
  obtain ⟨hc, hhdr, _, hk12, hal, hpost⟩ := hmid
  simp only at hc hhdr hk12 hal hpost
  subst hc
  have hbe := tiles_le _ _ _ hpost
  rw [buddy_page_len_eq] at hbe
  have hkd : L + (k - L) = k := by omega
  obtain ⟨m1, e1, e2, e3, e4⟩ := split_loop_spec s L h3 (k - L) m (PAGE_LEN + 1)
    (by rw [hkd]; exact hhdr) (by omega) (by rw [hkd]; exact hal) (by rw [hkd]; exact hbe)
    (by rw [buddy_page_len_eq]; omega)
  rw [hkd] at e3 e4
  have hposL := Nat.two_pow_pos L
  have hpowLk : 2 ^ L ≤ 2 ^ k := Nat.pow_le_pow_right (by norm_num) hLk
  have halL : s % 2 ^ L = 0 := aligned_of_le hLk hal
  have ha1 : accessible s = true := accessible_block h3 halL (by omega)
  have hbig : ¬ ((L : Int) > 12) := by omega
  refine ⟨(fun x => if x = s then { taken := true, level := (L : Int) } else m1 x), ?_, ?_, ?_⟩
  · unfold buddy_alloc
    rw [if_neg hlen, hl]
    simp only [Option.bind_eq_bind, Option.some_bind, PAGE_LEVEL]
    rw [if_neg hbig]
    simp only [hscan, Option.map_some', e1, Option.some_bind, load_of_accessible m1 ha1, e2,
      store_of_accessible m1 _ ha1, Option.pure_def, SIZEOF_HEAD]
  · beta_reduce
    rw [if_pos rfl]
  · refine (tiles_append _ _ _ _).2 ⟨s, ?_, rfl, ?_, h3, (by show L ≤ 12; omega), halL, ?_⟩
    · refine tiles_frame _ _ _ (fun x _ hx => ?_) hpre
      beta_reduce
      rw [if_neg (by omega), e4 x (Or.inl hx)]
    · beta_reduce
      rw [if_pos rfl]
      rfl
    · refine (tiles_append _ _ _ _).2 ⟨s + 2 ^ k, ?_, ?_⟩
      · have := split_tail_tiles
          (fun x => if x = s then { taken := true, level := (L : Int) } else m1 x)
          s (k - L) L h3 (by omega) (by rw [hkd]; exact hal)
          (fun j hj1 hj2 => by
            have := Nat.two_pow_pos j
            beta_reduce
            rw [if_neg (by omega)]
            exact e3 j hj1 (by omega))
        rw [hkd] at this
        exact this
      · refine tiles_frame _ _ _ (fun x hx _ => ?_) hpost
        beta_reduce
        rw [if_neg (by omega), e4 x (Or.inr hx)]

/-- C12: in every well-formed state (the blocks `bs` walked from the page start tile the
page) and for every length with `1 ≤ length` and `L = get_level(length)` (whether or not
`L ≤ PAGE_LEVEL`; beyond `PAGE_LEVEL` no block can fit): if no
free block has a level of at least `L`, `buddy_alloc` returns `NULL`; otherwise it chooses a
free block `b` of level at least `L` whose level is strictly smaller than that of every such
block at a lower address and at most that of every such block at a higher address (the
lowest-addressed one among the free blocks of the smallest sufficient level), splits it
until its level is `L` (leaving free blocks of the levels `L, ..., b.level - 1` behind it),
marks it taken and returns its address plus `sizeof(head_t)`. -/
theorem buddy_alloc_best_fit (mapped : Bool) (m : Page) (bs : List Blk) (len L : Nat)
    (ht : Tiles m 0 bs PAGE_LEN) (h1 : 1 ≤ len) (hl : get_level len = some (L : Int)) :
    ((∀ b ∈ bs, b.taken = false → b.level < L) →
      buddy_alloc mapped (some m) len = some (none, some m)) ∧
    ((∃ b ∈ bs, b.taken = false ∧ L ≤ b.level) →
      ∃ pre b post m', bs = pre ++ b :: post ∧ b.taken = false ∧ L ≤ b.level ∧
        (∀ c ∈ pre, c.taken = false → L ≤ c.level → b.level < c.level) ∧
        (∀ c ∈ post, c.taken = false → L ≤ c.level → b.level ≤ c.level) ∧
        buddy_alloc mapped (some m) len = some (some (b.addr + SIZEOF_HEAD), some m') ∧
        m' b.addr = { taken := true, level := (L : Int) } ∧
        Tiles m' 0 (pre ++ { addr := b.addr, level := L, taken := true } ::
          (split_tail b.addr L (b.level - L) ++ post)) PAGE_LEN) := by
  have hlen : len ≠ 0 := by omega
  obtain ⟨n, hn, h3, _⟩ := get_level_range len _ hl
  have h3' : 3 ≤ L := by omega
  constructor
  · intro hno
    exact buddy_alloc_no_fit mapped m bs len L ht hlen hl
      (fun b hb hf => by have := hno b hb hf; omega)
  · rintro ⟨b0, hb0, hf0, hl0⟩
    cases hp : pick (L : Int) none bs with
    | none =>
      have := (pick_none _ _ _ hp).2 b0 hb0 hf0
      omega
    | some b =>
      rcases pick_char _ _ _ _ hp with ⟨hc, _⟩ | ⟨pre, post, hbs, hbf, hbl, _, hpre, hpost⟩
      · cases hc
      · obtain ⟨s, k, t⟩ := b
        simp only at hbf hbl hpre hpost
        subst hbf
        subst hbs
        have hLk : L ≤ k := by omega
        obtain ⟨m', e1, e2, e3⟩ := buddy_alloc_at mapped m pre post s k len L ht hlen hl h3' hLk hp
        exact ⟨pre, _, post, m', rfl, rfl, hLk,
          fun c hc hcf hcl => hpre c hc hcf (by omega),
          fun c hc hcf hcl => hpost c hc hcf (by omega), e1, e2, e3⟩

theorem tiles_fresh_page :
    Tiles fresh_page 0 [{ addr := 0, level := 12, taken := false }] PAGE_LEN :=
  ⟨rfl, rfl, by decide, by decide, by decide, rfl⟩

theorem buddy_alloc_best_fit_witness :
    Tiles fresh_page 0 [{ addr := 0, level := 12, taken := false }] PAGE_LEN ∧ 1 ≤ 100 ∧
    get_level 100 = some ((7 : Nat) : Int) ∧
    (((∀ b ∈ [({ addr := 0, level := 12, taken := false } : Blk)], b.taken = false →
        b.level < 7) →
      buddy_alloc true (some fresh_page) 100 = some (none, some fresh_page)) ∧
    ((∃ b ∈ [({ addr := 0, level := 12, taken := false } : Blk)], b.taken = false ∧
        7 ≤ b.level) →
      ∃ pre b post m', [({ addr := 0, level := 12, taken := false } : Blk)] = pre ++ b :: post ∧
        b.taken = false ∧ 7 ≤ b.level ∧
        (∀ c ∈ pre, c.taken = false → 7 ≤ c.level → b.level < c.level) ∧
        (∀ c ∈ post, c.taken = false → 7 ≤ c.level → b.level ≤ c.level) ∧
        buddy_alloc true (some fresh_page) 100 = some (some (b.addr + SIZEOF_HEAD), some m') ∧
        m' b.addr = { taken := true, level := ((7 : Nat) : Int) } ∧
        Tiles m' 0 (pre ++ { addr := b.addr, level := 7, taken := true } ::
          (split_tail b.addr 7 (b.level - 7) ++ post)) PAGE_LEN)) :=
  ⟨tiles_fresh_page, by decide, by decide,
    buddy_alloc_best_fit true fresh_page _ 100 7 tiles_fresh_page (by decide) (by decide)⟩

theorem testBit_aligned_low {s j i : Nat} (h : s % 2 ^ (j + 1) = 0) (hi : i ≤ j) :
    s.testBit i = false := by
  obtain ⟨q, hq⟩ := Nat.dvd_of_mod_eq_zero h
  rw [hq, Nat.testBit_mul_pow_two]
  simp
  omega

theorem xor_pow_of_aligned {s j : Nat} (h : s % 2 ^ (j + 1) = 0) : s ^^^ 2 ^ j = s + 2 ^ j := by
  rw [← or_pow_of_aligned h]
  apply Nat.eq_of_testBit_eq
  intro i
  rw [Nat.testBit_xor, Nat.testBit_or, Nat.testBit_two_pow]
  by_cases hij : j = i
  · subst hij
    rw [testBit_aligned_low h (Nat.le_refl _)]
    simp
  · simp [hij]

theorem xor_pow_sibling {s j : Nat} (h : s % 2 ^ (j + 1) = 0) : (s + 2 ^ j) ^^^ 2 ^ j = s := by
  rw [← xor_pow_of_aligned h, Nat.xor_assoc, Nat.xor_self, Nat.xor_zero]

theorem mask_testBit (j i : Nat) :
    ((ONES <<< (j + 1)) % 2 ^ 64).testBit i = (decide (j + 1 ≤ i) && decide (i < 64)) := by
  have h1 : ONES = 2 ^ 64 - 1 := by decide
  rw [h1, Nat.testBit_mod_two_pow, Nat.testBit_shiftLeft, Nat.testBit_two_pow_sub_one]
  by_cases h2 : i < 64 <;> by_cases h3 : j + 1 ≤ i <;> simp [h2, h3]
  omega

theorem and_mask_aligned {s j : Nat} (h : s % 2 ^ (j + 1) = 0) (hs : s < 2 ^ 64) :
    s &&& ((ONES <<< (j + 1)) % 2 ^ 64) = s := by
  apply Nat.eq_of_testBit_eq
  intro i
  rw [Nat.testBit_and, mask_testBit j i]
  by_cases h1 : i ≤ j
  · rw [testBit_aligned_low h h1]; simp
  · by_cases h2 : i < 64
    · simp [h2]; omega
    · have : s.testBit i = false :=
        Nat.testBit_lt_two_pow
          (Nat.lt_of_lt_of_le hs (Nat.pow_le_pow_right (by norm_num) (by omega)))
      simp [this]

theorem and_mask_sibling {s j : Nat} (h : s % 2 ^ (j + 1) = 0) (hs : s < 2 ^ 64) :
    (s + 2 ^ j) &&& ((ONES <<< (j + 1)) % 2 ^ 64) = s := by
  rw [← or_pow_of_aligned h]
  apply Nat.eq_of_testBit_eq
  intro i
  rw [Nat.testBit_and, mask_testBit j i, Nat.testBit_or, Nat.testBit_two_pow]
  by_cases h1 : i ≤ j
  · rw [testBit_aligned_low h h1]
    have : ¬ (j + 1 ≤ i) := by omega
    simp [this]
  · by_cases h2 : i < 64
    · have h3 : j + 1 ≤ i := by omega
      have h4 : ¬ (j = i) := by omega
      simp [h2, h3, h4]
    · have : s.testBit i = false :=
        Nat.testBit_lt_two_pow
          (Nat.lt_of_lt_of_le hs (Nat.pow_le_pow_right (by norm_num) (by omega)))
      simp [this, h2]

/-- An aligned block that starts inside the page ends inside the page. -/
theorem block_in_page {s L : Nat} (hL : L ≤ 12) (hal : s % 2 ^ L = 0) (hs : s < 4096) :
    s + 2 ^ L ≤ 4096 := by
  obtain ⟨q, hq⟩ := Nat.dvd_of_mod_eq_zero hal
  have hcap : 2 ^ L * 2 ^ (12 - L) = 4096 := by
    rw [← Nat.pow_add, Nat.add_sub_cancel' hL]
  have hlt : q < 2 ^ (12 - L) := by
    refine Nat.lt_of_mul_lt_mul_left (a := 2 ^ L) ?_
    rw [hcap, ← hq]
    exact hs
  have hle : 2 ^ L * (q + 1) ≤ 2 ^ L * 2 ^ (12 - L) := Nat.mul_le_mul_left _ hlt
  rw [hcap, Nat.mul_add, Nat.mul_one, ← hq] at hle
  exact hle

/-- `merge` of a block of level `j` whose primary block (the block itself or its lower
sibling) is at `s` and carries level `j` as well. -/
theorem merge_spec (m : Page) (s block j : Nat) (t t' : Bool)
    (hb : m block = { taken := t, level := (j : Int) })
    (hp : m s = { taken := t', level := (j : Int) })
    (hacc : accessible block = true) (hacs : accessible s = true) (hj : j + 1 ≤ 12)
    (hand : block &&& ((ONES <<< (j + 1)) % 2 ^ 64) = s) :
    merge m block = some (s, fun x => if x = s then { taken := t', level := ((j + 1 : Nat) : Int) }
                                       else m x) := by
  have htn : ((j : Int) + 1).toNat = j + 1 := by omega
  have hsh : toShort ((j : Int) + 1) = ((j + 1 : Nat) : Int) := by
    rw [toShort_of_range _ (by omega) (by omega)]
    omega
  unfold merge
  simp only [load_of_accessible m hacc, hb, Option.bind_eq_bind, Option.some_bind, PAGE_LEVEL]
  rw [if_pos ⟨by omega, by omega⟩]
  simp only [htn, hand, load_of_accessible m hacs, hp, Option.some_bind, hsh,
    store_of_accessible m _ hacs, Option.pure_def]

/-- C18: for every block at an offset `s` of the page that is a multiple of `2 ^ L`, with
level `L`, `MIN_LEVEL < L ≤ PAGE_LEVEL`: `split` leaves the block at `s` and returns the
sibling at `s + 2 ^ (L - 1)`, both free with level `L - 1`; `get_buddy` of the block is the
sibling and `get_buddy` of the sibling is the block; `get_next` of the block is the sibling;
and `merge` applied to either of the two returns the address `s`, with level `L` again. -/
theorem split_buddy_merge (m : Page) (s L : Nat) (t : Bool) (hL1 : MIN_LEVEL < (L : Int))
    (hL2 : (L : Int) ≤ PAGE_LEVEL) (hal : s % 2 ^ L = 0) (hpage : s < PAGE_LEN)
    (hs : m s = { taken := t, level := (L : Int) }) :
    ∃ m2, split m s = some (s + 2 ^ (L - 1), m2) ∧
      m2 s = { taken := false, level := (L : Int) - 1 } ∧
      m2 (s + 2 ^ (L - 1)) = { taken := false, level := (L : Int) - 1 } ∧
      get_buddy m2 s = some (s + 2 ^ (L - 1)) ∧
      get_buddy m2 (s + 2 ^ (L - 1)) = some s ∧
      get_next m2 s = some (s + 2 ^ (L - 1)) ∧
      (∃ m3, merge m2 s = some (s, m3) ∧ m3 s = { taken := false, level := (L : Int) }) ∧
      (∃ m3, merge m2 (s + 2 ^ (L - 1)) = some (s, m3) ∧
        m3 s = { taken := false, level := (L : Int) }) := by
  simp only [MIN_LEVEL, PAGE_LEVEL, buddy_page_len_eq] at hL1 hL2 hpage
  have hin : s + 2 ^ L ≤ 4096 := block_in_page (by omega) hal hpage
  obtain ⟨j, rfl⟩ : ∃ j, L = j + 1 := ⟨L - 1, by omega⟩
  have hj3 : 3 ≤ j := by omega
  have hpos := Nat.two_pow_pos j
  have hpow : 2 ^ (j + 1) = 2 ^ j + 2 ^ j := by rw [Nat.pow_succ]; omega
  have hsp := split_spec m s j t hs hj3 (by omega) hal hin
  have ha1 : accessible s = true := accessible_block (by omega) hal hin
  have ha2 : accessible (s + 2 ^ j) = true :=
    accessible_block hj3 (add_pow_aligned (aligned_of_le (Nat.le_succ j) hal)) (by omega)
  have hne : s ≠ s + 2 ^ j := by omega
  have hlev : ((j + 1 : Nat) : Int) - 1 = (j : Int) := by omega
  rw [Nat.add_sub_cancel, hlev]
  obtain ⟨m2, hm2, hm2s, hm2o⟩ : ∃ m2, split m s = some (s + 2 ^ j, m2) ∧
      m2 s = { taken := false, level := (j : Int) } ∧
      m2 (s + 2 ^ j) = { taken := false, level := (j : Int) } := by
    refine ⟨_, hsp, ?_, ?_⟩
    · beta_reduce
      rw [if_neg hne, if_pos rfl]
    · beta_reduce
      rw [if_pos rfl]
  have hs64 : s < 2 ^ 64 := by omega
  refine ⟨m2, hm2, hm2s, hm2o, ?_, ?_, ?_, ?_, ?_⟩
  · simp only [get_buddy, load_of_accessible _ ha1, hm2s, Option.bind_eq_bind,
      Option.some_bind, page_bit_nat j (by omega), xor_pow_of_aligned hal, Option.pure_def]
  · simp only [get_buddy, load_of_accessible _ ha2, hm2o, Option.bind_eq_bind,
      Option.some_bind, page_bit_nat j (by omega), xor_pow_sibling hal, Option.pure_def]
  · simp only [get_next, load_of_accessible _ ha1, hm2s, Option.bind_eq_bind,
      Option.some_bind, shl1_nat j (by omega), Option.pure_def]
  · refine ⟨_, merge_spec _ s s j false false hm2s hm2s ha1 ha1 (by omega)
      (and_mask_aligned hal hs64), ?_⟩
    beta_reduce
    rw [if_pos rfl]
  · refine ⟨_, merge_spec _ s (s + 2 ^ j) j false false hm2o hm2s ha2 ha1 (by omega)
      (and_mask_sibling hal hs64), ?_⟩
    beta_reduce
    rw [if_pos rfl]

theorem split_buddy_merge_witness :
    MIN_LEVEL < ((12 : Nat) : Int) ∧ ((12 : Nat) : Int) ≤ PAGE_LEVEL ∧ 0 % 2 ^ 12 = 0 ∧
    0 < PAGE_LEN ∧ fresh_page 0 = { taken := false, level := ((12 : Nat) : Int) } ∧
    ∃ m2, split fresh_page 0 = some (0 + 2 ^ (12 - 1), m2) ∧
      m2 0 = { taken := false, level := ((12 : Nat) : Int) - 1 } ∧
      m2 (0 + 2 ^ (12 - 1)) = { taken := false, level := ((12 : Nat) : Int) - 1 } ∧
      get_buddy m2 0 = some (0 + 2 ^ (12 - 1)) ∧
      get_buddy m2 (0 + 2 ^ (12 - 1)) = some 0 ∧
      get_next m2 0 = some (0 + 2 ^ (12 - 1)) ∧
      (∃ m3, merge m2 0 = some (0, m3) ∧
        m3 0 = { taken := false, level := ((12 : Nat) : Int) }) ∧
      (∃ m3, merge m2 (0 + 2 ^ (12 - 1)) = some (0, m3) ∧
        m3 0 = { taken := false, level := ((12 : Nat) : Int) }) :=
  ⟨by decide, by decide, by decide, by decide, rfl,
    split_buddy_merge fresh_page 0 12 false (by decide) (by decide) (by decide) (by decide) rfl⟩

theorem pick_append (l : Int) : ∀ (xs ys : List Blk) (acc : Option Blk),
    pick l acc (xs ++ ys) = pick l (pick l acc xs) ys := by
  intro xs
  induction xs with
  | nil => intro ys acc; rfl
  | cons b xs ih =>
    intro ys acc
    simp only [List.cons_append, pick]
    exact ih ys _

theorem pick_keep (l : Int) (b : Blk) : ∀ (bs : List Blk),
    (∀ c ∈ bs, ¬ c.level < b.level) → pick l (some b) bs = some b := by
  intro bs
  induction bs with
  | nil => intro _; rfl
  | cons c bs ih =>
    intro h
    have hc := h c (List.mem_cons_self _ _)
    simp only [pick]
    rw [if_neg, ih (fun d hd => h d (List.mem_cons_of_mem _ hd))]
    simp only [Bool.and_eq_true, decide_eq_true_eq, not_and]
    intro _ hlt
    exact hc hlt

theorem uni_tiles {L : Nat} {m : Page} {j : Nat} {T F : List Blk} (hu : Uni L m j T F) :
    Tiles m 0 (T ++ F) PAGE_LEN :=
  (tiles_append _ _ _ _).2 ⟨_, hu.tiles_T, hu.tiles_F⟩

theorem uni_pick {L : Nat} {m : Page} {j : Nat} {T F : List Blk} {b : Blk}
    (hu : Uni L m j T (b :: F)) : pick (L : Int) none (T ++ b :: F) = some b := by
  have hT : pick (L : Int) none T = none :=
    pick_of_no_fit _ T none (fun c hc hf => by rw [hu.taken_T c hc] at hf; cases hf)
  obtain ⟨hbf, hbl⟩ := hu.free_F b (List.mem_cons_self _ _)
  have hs := (List.pairwise_cons.1 hu.sorted_F).1
  rw [pick_append, hT]
  simp only [pick]
  rw [if_pos (by simp [hbf, hbl])]
  exact pick_keep _ b F (fun c hc => by have := hs c hc; omega)

theorem uni_full {L : Nat} {m : Page} {j : Nat} {T : List Blk} (hu : Uni L m j T [])
    (len : Nat) (hlen : len ≠ 0) (hl : get_level len = some (L : Int)) :
    buddy_alloc true (some m) len = some (none, some m) := by
  refine buddy_alloc_no_fit true m (T ++ []) len L (uni_tiles hu) hlen hl ?_
  intro c hc hf
  rw [List.append_nil] at hc
  rw [hu.taken_T c hc] at hf
  cases hf

theorem uni_step {L : Nat} {m : Page} {j : Nat} {T F : List Blk} {b : Blk}
    (hu : Uni L m j T (b :: F)) (len : Nat) (hlen : len ≠ 0)
    (hl : get_level len = some (L : Int)) :
    ∃ m' T' F', buddy_alloc true (some m) len = some (some (j * 2 ^ L + 4), some m') ∧
      Uni L m' (j + 1) T' F' := by
  obtain ⟨n, hn, h3n, _⟩ := get_level_range len _ hl
  have h3 : 3 ≤ L := by omega
  have hp := uni_pick hu
  have ht := uni_tiles hu
  obtain ⟨hbf, hbl⟩ := hu.free_F b (List.mem_cons_self _ _)
  have hsorted := List.pairwise_cons.1 hu.sorted_F
  obtain ⟨hba, _, _, hk12, _, _⟩ := hu.tiles_F
  obtain ⟨s, k, t⟩ := b
  simp only at hbf hbl hba hk12 hsorted
  subst hbf
  subst hba
  obtain ⟨m', e1, _, e3⟩ := buddy_alloc_at true m T F _ k len L ht hlen hl h3 hbl hp
  obtain ⟨c, hT, hmid⟩ := (tiles_append _ _ _ _).1 e3
  obtain ⟨hc, hhdr, hh3, hh12, hal, hrest⟩ := hmid
  simp only at hc hhdr hh3 hh12 hal hrest
  subst hc
  refine ⟨m', T ++ [{ addr := j * 2 ^ L, level := L, taken := true }],
    split_tail (j * 2 ^ L) L (k - L) ++ F, e1, ?_, ?_, ?_, ?_, ?_⟩
  · rw [Nat.add_mul, Nat.one_mul]
    exact (tiles_append _ _ _ _).2 ⟨_, hT, rfl, hhdr, hh3, hh12, hal, rfl⟩
  · rw [Nat.add_mul, Nat.one_mul]
    exact hrest
  · intro c hc
    rcases List.mem_append.1 hc with hc | hc
    · exact hu.taken_T c hc
    · rw [List.mem_singleton.1 hc]
  · intro c hc
    rcases List.mem_append.1 hc with hc | hc
    · obtain ⟨i, hi, rfl⟩ := List.mem_map.1 hc
      exact ⟨rfl, (List.mem_range'_1.1 hi).1⟩
    · exact hu.free_F c (List.mem_cons_of_mem _ hc)
  · refine List.pairwise_append.2 ⟨?_, hsorted.2, ?_⟩
    · exact List.pairwise_map.2 (List.pairwise_lt_range' L (k - L))
    · intro x hx y hy
      obtain ⟨i, hi, rfl⟩ := List.mem_map.1 hx
      have h1 := (List.mem_range'_1.1 hi).2
      have h2 := hsorted.1 y hy
      show i < y.level
      omega

theorem cap_mul (L : Nat) (hL : L ≤ 12) : 2 ^ (12 - L) * 2 ^ L = 4096 := by
  rw [← Nat.pow_add, Nat.sub_add_cancel hL]

/-- Repeated allocation of one level from a state of the uniform shape: call number `i`
(from 0) succeeds at `i * 2 ^ L` while `i < 2 ^ (12 - L)`, every later call returns null. -/
theorem uni_run (L len : Nat) (hL : L ≤ 12) (hlen : len ≠ 0)
    (hl : get_level len = some (L : Int)) : ∀ (n i : Nat) (m : Page) (T F : List Blk),
    Uni L m (min i (2 ^ (12 - L))) T F →
    ∃ g', alloc_rep len n (some m) =
      some ((List.range' i n).map
        (fun i => if i < 2 ^ (12 - L) then some (i * 2 ^ L + 4) else none), g') := by
  intro n
  induction n with
  | zero => intro i m T F _; exact ⟨some m, rfl⟩
  | succ n ih =>
    intro i m T F hu
    have hcap := cap_mul L hL
    have hposL := Nat.two_pow_pos L
    by_cases hi : i < 2 ^ (12 - L)
    · have hmin : min i (2 ^ (12 - L)) = i := Nat.min_eq_left (Nat.le_of_lt hi)
      rw [hmin] at hu
      have hlt : i * 2 ^ L < 4096 := by
        rw [← hcap]
        exact Nat.mul_lt_mul_of_pos_right hi hposL
      cases F with
      | nil =>
        have : i * 2 ^ L = PAGE_LEN := hu.tiles_F
        rw [buddy_page_len_eq] at this
        omega
      | cons b F =>
        obtain ⟨m', T', F', e, hu'⟩ := uni_step hu len hlen hl
        have hmin' : min (i + 1) (2 ^ (12 - L)) = i + 1 := Nat.min_eq_left hi
        obtain ⟨g', e'⟩ := ih (i + 1) m' T' F' (by rw [hmin']; exact hu')
        refine ⟨g', ?_⟩
        rw [alloc_rep, e]
        simp only [Option.bind_eq_bind, Option.some_bind, e', Option.pure_def, List.range'_succ,
          List.map_cons, if_pos hi]
    · have hmin : min i (2 ^ (12 - L)) = 2 ^ (12 - L) := Nat.min_eq_right (by omega)
      have hmin' : min (i + 1) (2 ^ (12 - L)) = 2 ^ (12 - L) := Nat.min_eq_right (by omega)
      rw [hmin] at hu
      cases F with
      | cons b F =>
        obtain ⟨_, _, _, _, _, hrest⟩ := hu.tiles_F
        have := tiles_le _ _ _ hrest
        have hpos := Nat.two_pow_pos b.level
        rw [hcap, buddy_page_len_eq] at this
        omega
      | nil =>
        have e := uni_full hu len hlen hl
        obtain ⟨g', e'⟩ := ih (i + 1) m T [] (by rw [hmin']; exact hu)
        refine ⟨g', ?_⟩
        rw [alloc_rep, e]
        simp only [Option.bind_eq_bind, Option.some_bind, e', Option.pure_def, List.range'_succ,
          List.map_cons, if_neg hi]

/-- C20 (as amended): from the fresh page, for every level `L ≤ PAGE_LEVEL` and every
non-zero length whose `get_level` is `L` (so `MIN_LEVEL ≤ L`), of any number `n` of
consecutive `buddy_alloc(length)` calls exactly the first `2 ^ (PAGE_LEVEL - L)` return
non-null (call `i`, counted from 0, returns the payload address `i * 2 ^ L +
sizeof(head_t)`) and every later call returns `NULL`. -/
theorem buddy_uniform_capacity (L len n : Nat) (hL : (L : Int) ≤ PAGE_LEVEL) (hlen : len ≠ 0)
    (hl : get_level len = some (L : Int)) :
    ∃ g', alloc_rep len n fresh =
      some ((List.range n).map
        (fun i => if i < 2 ^ (12 - L) then some (i * 2 ^ L + SIZEOF_HEAD) else none), g') := by
  have hL' : L ≤ 12 := by
    simp only [PAGE_LEVEL] at hL
    omega
  have hu : Uni L fresh_page (min 0 (2 ^ (12 - L))) [] [{ addr := 0, level := 12, taken := false }] := by
    rw [Nat.zero_min]
    refine ⟨?_, ?_, fun c hc => (by cases hc), ?_, List.pairwise_singleton _ _⟩
    · show 0 = 0 * 2 ^ L
      omega
    · rw [Nat.zero_mul]
      exact tiles_fresh_page
    · intro c hc
      rw [List.mem_singleton.1 hc]
      exact ⟨rfl, hL'⟩
  obtain ⟨g', e⟩ := uni_run L len hL' hlen hl n 0 fresh_page _ _ hu
  exact ⟨g', by rw [List.range_eq_range']; exact e⟩

theorem buddy_uniform_capacity_witness :
    ((3 : Nat) : Int) ≤ PAGE_LEVEL ∧ 1 ≠ 0 ∧ get_level 1 = some ((3 : Nat) : Int) ∧
    ∃ g', alloc_rep 1 513 fresh =
      some ((List.range 513).map
        (fun i => if i < 2 ^ (12 - 3) then some (i * 2 ^ 3 + SIZEOF_HEAD) else none), g') :=
  ⟨by decide, by decide, by decide,
    buddy_uniform_capacity 3 1 513 (by decide) (by decide) (by decide)⟩

/-- C20 (counterexample): the length 0 has `get_level(0) = 3 = MIN_LEVEL`, but the first
`buddy_alloc(0)` on the fresh page returns `NULL`, not one of `2 ^ (12 - 3) = 512` non-null
pointers. -/
theorem buddy_uniform_zero_fails :
    MIN_LEVEL ≤ 3 ∧ (3 : Int) ≤ PAGE_LEVEL ∧ get_level 0 = some 3 ∧ 0 < 2 ^ (12 - 3) ∧
      (alloc_rep 0 1 fresh).map (fun r => r.1) = some [none] := by
  decide

end Buddy

namespace Pool

/-- A chain of valid slot indices is what the walk `free_list` returns. -/
theorem chain_free_list {h : pool_alloc_t} {m : Page} (hv : Valid h m) :
    ∀ (L : List Nat) (f : Int) (fuel : Nat), Chain m h.el_len f L →
    (∀ i ∈ L, i < 4096 / h.el_len) → L.length < fuel →
    free_list h fuel f = some (L.map (fun i : Nat => (i : Int))) := by
  intro L
  induction L with
  | nil =>
    intro f fuel hc _ hf
    obtain ⟨k, rfl⟩ : ∃ k, fuel = k + 1 := ⟨fuel - 1, by simp at hf; omega⟩
    have hf1 : f = -1 := hc
    subst hf1
    simp [free_list, get_block]
  | cons i L ih =>
    intro f fuel hc hb hf
    obtain ⟨k, rfl⟩ : ∃ k, fuel = k + 1 := ⟨fuel - 1, by simp at hf; omega⟩
    have hi := hb i (List.mem_cons_self _ _)
    have hfi : f = (i : Int) := hc.1
    subst hfi
    have := ih _ k hc.2 (fun j hj => hb j (List.mem_cons_of_mem _ hj))
      (by simp at hf; omega)
    rw [free_list, get_block_slot hv i hi]
    simp only [Option.bind_eq_bind, Option.some_bind, hv.pool_eq, load,
      accessible_slot h.el_len i hv.two_le hi, if_true, this, Option.pure_def, List.map_cons]

theorem length_le_of_nodup_bounded {L : List Nat} {N : Nat} (hnd : L.Nodup)
    (hb : ∀ i ∈ L, i < N) : L.length ≤ N := by
  have hsub : L ⊆ List.range N := fun i hi => List.mem_range.2 (hb i hi)
  have := (List.subperm_of_subset hnd hsub).length_le
  rwa [List.length_range] at this

/-- C19: in every pool state reachable from a successful `new_pool_alloc` by `pool_alloc`
calls, `pool_free` calls on currently allocated slots and writes of the callers into slots
they hold, following the decoded links from `first_index` reaches the sentinel after at most
`N = PAGE_LEN / el_len` steps and visits a duplicate-free list of indices: exactly the
indices `i < N` whose slot is not currently allocated. -/
theorem pool_free_list_invariant (h : pool_alloc_t) (live : List Nat) (hr : Reach h live) :
    ∃ L : List Nat,
      free_list h (PAGE_LEN / h.el_len + 1) h.first_index =
        some (L.map (fun i : Nat => (i : Int))) ∧
      L.Nodup ∧ L.length ≤ PAGE_LEN / h.el_len ∧
      ∀ i : Nat, i ∈ L ↔ (i < PAGE_LEN / h.el_len ∧ i * h.el_len ∉ live) := by
  obtain ⟨m, L, hi⟩ := reach_inv hr
  have hlen := length_le_of_nodup_bounded hi.nodup hi.bound
  rw [page_len_eq]
  refine ⟨L, chain_free_list hi.valid L _ _ hi.chain hi.bound (by omega), hi.nodup, hlen, ?_⟩
  intro i
  constructor
  · intro hiL
    refine ⟨hi.bound i hiL, fun hlive => ?_⟩
    obtain ⟨j, _, hpj, hjL⟩ := hi.live_slot _ hlive
    exact hjL (slot_offset_inj hi.valid.two_le hpj ▸ hiL)
  · rintro ⟨hib, hnl⟩
    rcases hi.cover i hib with hm | hm
    · exact hm
    · exact absurd hm hnl

theorem pool_free_list_invariant_witness :
    ∃ L : List Nat,
      free_list lifo_state (PAGE_LEN / lifo_state.el_len + 1) lifo_state.first_index =
        some (L.map (fun i : Nat => (i : Int))) ∧
      L.Nodup ∧ L.length ≤ PAGE_LEN / lifo_state.el_len ∧
      ∀ i : Nat, i ∈ L ↔
        (i < PAGE_LEN / lifo_state.el_len ∧ i * lifo_state.el_len ∉ [2048, 1024, 0]) :=
  pool_free_list_invariant lifo_state [2048, 1024, 0] lifo_state_reach

end Pool

namespace Pool

theorem canon_fresh {h : pool_alloc_t} {m : Page} (hl : FreshLinks h m) :
    Canon m h.el_len (List.range (4096 / h.el_len)) := by
  intro i hi
  have hi' := List.mem_range.1 hi
  have hN := slot_count_le hl.valid
  by_cases hlast : i + 1 < 4096 / h.el_len
  · have hd := decode_fresh h m hl i (4096 / h.el_len - i - 2 + 1) (by omega)
    rw [if_neg (by omega)] at hd
    rw [hd, hl.zero i hlast]
    unfold index_to_offset
    rw [if_neg (by omega), toShort_of_range _ (by omega) (by omega)]
    push_cast
    omega
  · have hi2 : i = 4096 / h.el_len - 1 := by omega
    rw [hi2, hl.last]
    rfl

/-- Every state reachable by valid use satisfies the free-list invariant with canonical
links in the free slots. -/
theorem reach_canon {h : pool_alloc_t} {live : List Nat} (hr : Reach h live) :
    ∃ m L, Inv h live m L ∧ Canon m h.el_len L := by
  induction hr with
  | init n h h1 h2 hnew =>
    obtain ⟨m, hi⟩ := inv_init n h h1 h2 hnew
    obtain ⟨h0, m0, hnew0, hl, _, _, _⟩ := new_pool_alloc_fresh n h1 h2
    rw [hnew] at hnew0
    cases Option.some.inj hnew0
    have hm : m0 = m := Option.some.inj (hl.valid.pool_eq.symm.trans hi.valid.pool_eq)
    subst hm
    exact ⟨m0, _, hi, canon_fresh hl⟩
  | alloc h live p h' _ ha ih =>
    obtain ⟨m, L, hi, hcanon⟩ := ih
    obtain ⟨i, L', hL, _, hel, hi'⟩ := inv_alloc hi ha
    subst hL
    refine ⟨m, L', hi', ?_⟩
    rw [hel]
    exact fun k hk => hcanon k (List.mem_cons_of_mem _ hk)
  | free h live p h' _ hp hfree ih =>
    obtain ⟨m, L, hi, hcanon⟩ := ih
    obtain ⟨j, hjb, hpj, hjL⟩ := hi.live_slot p hp
    have hN := slot_count_le hi.valid
    subst hpj
    have hfree' := hfree
    rw [pool_free_slot hi.valid j hjb] at hfree'
    cases hfree'
    obtain ⟨j', m', hpj', _, hi'⟩ := inv_free hi hp hfree
    have hjj : j = j' := slot_offset_inj hi.valid.two_le hpj'
    subst hjj
    have hm' := Option.some.inj hi'.valid.pool_eq
    subst hm'
    refine ⟨_, _, hi', ?_⟩
    have hrt : offset_to_index j (index_to_offset j h.first_index) = h.first_index := by
      apply decode_encode j _ (by omega) (by omega)
      rcases chain_head hi.chain with hc | ⟨i, hiL, hc⟩
      · exact Or.inl hc
      · have := hi.bound i hiL
        refine Or.inr ⟨by omega, by omega, ?_⟩
        rw [hc]
        intro hij
        have : i = j := by omega
        exact hjL (this ▸ hiL)
    intro i hiL
    show index_to_offset i (offset_to_index i (if i * h.el_len = j * h.el_len then _ else _)) =
      (if i * h.el_len = j * h.el_len then _ else _)
    rcases List.mem_cons.1 hiL with hij | hiL
    · subst hij
      rw [if_pos rfl, hrt]
    · have hne : i * h.el_len ≠ j * h.el_len := fun hc =>
        hjL (slot_offset_inj hi.valid.two_le hc ▸ hiL)
      rw [if_neg hne]
      exact hcanon i hiL
  | write h live p v m0 _ hp hpool ih =>
    obtain ⟨m, L, hi, hcanon⟩ := ih
    have : m0 = m := Option.some.inj (hpool.symm.trans hi.valid.pool_eq)
    subst this
    obtain ⟨j, _, hpj, hjL⟩ := hi.live_slot p hp
    refine ⟨_, L, inv_write v hi hp, ?_⟩
    intro i hiL
    show index_to_offset i (offset_to_index i (if i * h.el_len = p then _ else _)) =
      (if i * h.el_len = p then _ else _)
    have hne : i * h.el_len ≠ p := by
      intro hc
      rw [hpj] at hc
      exact hjL (slot_offset_inj hi.valid.two_le hc ▸ hiL)
    rw [if_neg hne]
    exact hcanon i hiL

/-- C21: in every pool state reachable by valid use whose free list is non-empty
(`first_index` is not the sentinel), `pool_alloc` returns a slot pointer `p`, and the
`pool_free` of `p` that follows immediately restores `first_index` and writes into the link
field of the slot the value it held before the allocation; the page, the whole handle and
with them the (non-empty) sequence of slots that the walk of the free list returns are as
before. -/
theorem pool_alloc_free_round_trip (h : pool_alloc_t) (live : List Nat) (hr : Reach h live)
    (hne : h.first_index ≠ -1) :
    ∃ p h1 h2 m m2 Ls, pool_alloc h = some (some p, h1) ∧ pool_free h1 (some p) = some h2 ∧
      h2.first_index = h.first_index ∧ h.pool = some m ∧ h2.pool = some m2 ∧
      m2 p = m p ∧ h2 = h ∧ Ls ≠ [] ∧
      free_list h (PAGE_LEN / h.el_len + 1) h.first_index = some Ls ∧
      free_list h2 (PAGE_LEN / h2.el_len + 1) h2.first_index = some Ls := by
  obtain ⟨m, L, hi, hcanon⟩ := reach_canon hr
  cases L with
  | nil => exact absurd hi.chain hne
  | cons i L' =>
    have hc := hi.chain
    have hib := hi.bound i (List.mem_cons_self i L')
    have hv := hi.valid
    have ealloc := pool_alloc_slot hv i hib hc.1
    have hv1 : Valid { h with first_index := offset_to_index i (m (i * h.el_len)) } m :=
      ⟨hv.pool_eq, hv.two_le, hv.le_page⟩
    have efree := pool_free_slot hv1 i hib
    dsimp only at efree
    rw [hcanon i (List.mem_cons_self i L')] at efree
    have hm2 : (fun x => if x = i * h.el_len then m (i * h.el_len) else m x) = m := by
      funext x
      by_cases hx : x = i * h.el_len
      · rw [if_pos hx, hx]
      · rw [if_neg hx]
    rw [hm2, ← hc.1, ← hv.pool_eq] at efree
    rw [← hc.1] at ealloc
    have hh : ({ pool := h.pool, el_len := h.el_len, first_index := h.first_index } :
        pool_alloc_t) = h := rfl
    rw [hh] at efree
    have hlen := length_le_of_nodup_bounded hi.nodup hi.bound
    have hlist := chain_free_list hv (i :: L') _ (4096 / h.el_len + 1) hi.chain hi.bound
      (by omega)
    rw [← page_len_eq] at hlist
    exact ⟨i * h.el_len, _, h, m, m, _, ealloc, efree, rfl, hv.pool_eq, hv.pool_eq, rfl, rfl,
      by simp, hlist, hlist⟩

theorem pool_alloc_free_round_trip_witness :
    lifo_state.first_index ≠ -1 ∧
    ∃ p h1 h2 m m2 Ls, pool_alloc lifo_state = some (some p, h1) ∧
      pool_free h1 (some p) = some h2 ∧
      h2.first_index = lifo_state.first_index ∧ lifo_state.pool = some m ∧
      h2.pool = some m2 ∧ m2 p = m p ∧ h2 = lifo_state ∧ Ls ≠ [] ∧
      free_list lifo_state (PAGE_LEN / lifo_state.el_len + 1) lifo_state.first_index =
        some Ls ∧
      free_list h2 (PAGE_LEN / h2.el_len + 1) h2.first_index = some Ls :=
  ⟨by decide, pool_alloc_free_round_trip lifo_state [2048, 1024, 0] lifo_state_reach
    (by decide)⟩

end Pool

/-- C15: freeing null is a no-op in both allocators: `buddy_free(NULL)` leaves the top-block
reference and the page unchanged, and `pool_free(handle, NULL)` leaves the handle
(`first_index`, `el_len` and the page) unchanged. -/
theorem free_null_noop (g : Option Buddy.Page) (h : Pool.pool_alloc_t) :
    Buddy.buddy_free g none = some g ∧ Pool.pool_free h none = some h :=
  ⟨rfl, rfl⟩
